import Mathlib

/-!
# Verification of the wetlands spatial merge engine

Shallow embedding of `src/backend/mage/transformers/wetlands_merge_grid.py`.

Modelling conventions:

* Geometries are finite unions of closed axis-aligned rectangles with rational
  coordinates (`Finset Rect`).  The repository stores arbitrary polygons; the
  claims under verification concern the merge pipeline (chunking, contiguity
  components, dissolve counting, statistics, CRS guard, serialization
  metadata), for which this idealized exact-arithmetic geometry carries all
  the relevant structure.  Floating point is idealized to `ℚ`.
* `libpysal.weights.Queen.from_dataframe` builds contiguity on *shared
  vertices*: two polygons are neighbours iff their coordinate sequences share
  at least one point.  We model the vertex set of a geometry as the corner
  set of its rectangles, and Queen adjacency as a nonempty intersection of
  vertex sets.
* `shapely.make_valid` is the identity on this geometry type (every
  rectangle union is already a valid geometry), matching the post-repair
  invariant of the pipeline.
* The dataframe CRS is threaded as an `Option ℕ` EPSG code at the
  `merge_grid` entry (source lines 245-255).  The re-checks inside
  `process_chunk` (lines 31-36) and `write_duckdb_compatible_geoparquet`
  (lines 117-124) receive frames inheriting the already-verified CRS and are
  therefore modelled by the same guard at the entry point.
* The `try/except` around the global re-merge (source lines 314-336) is an
  exception raised by an external library on environment-dependent data; it
  is modelled by an oracle `fail : ℤ → Bool` saying for which gridcode the
  global `Queen.from_dataframe` call raises.
* Rational arithmetic is performed through `mkRat`-based wrappers (`qadd`,
  `qsub`, `qdivN`, `qmulN`, `qmin`, `qmax`) because the library `Rat`
  operations are `@[irreducible]`; the bridge lemmas `qadd_eq` … `qmax_eq`
  prove the wrappers equal to the field operations of `ℚ`.
-/

namespace Wetlands

/-! ## Exact rational arithmetic wrappers -/

/-- Addition on `ℚ` via `mkRat` (kernel-computable). -/
def qadd (a b : ℚ) : ℚ := mkRat (a.num * b.den + b.num * a.den) (a.den * b.den)

/-- Subtraction on `ℚ` via `mkRat` (kernel-computable). -/
def qsub (a b : ℚ) : ℚ := mkRat (a.num * b.den - b.num * a.den) (a.den * b.den)

/-- Division of a rational by a natural number via `mkRat` (kernel-computable). -/
def qdivN (a : ℚ) (s : ℕ) : ℚ := mkRat a.num (a.den * s)

/-- Multiplication of a rational by a natural number via `mkRat` (kernel-computable). -/
def qmulN (i : ℕ) (a : ℚ) : ℚ := mkRat (i * a.num) a.den

/-- Minimum of two rationals. -/
def qmin (a b : ℚ) : ℚ := if a ≤ b then a else b

/-- Maximum of two rationals. -/
def qmax (a b : ℚ) : ℚ := if a ≤ b then b else a

/-! ## Geometry

A `Rect` is the closed axis-aligned box `[x1, x2] × [y1, y2]`.  It doubles as
the bounding-box / grid-cell type (`shapely.geometry.box(minx, miny, maxx,
maxy)` in the source).  A geometry is a finite union of rectangles. -/

/-- Closed axis-aligned rectangle `[x1, x2] × [y1, y2]`. -/
structure Rect where
  x1 : ℚ
  y1 : ℚ
  x2 : ℚ
  y2 : ℚ
deriving DecidableEq

/-- A point of the plane. -/
abbrev Pt : Type := ℚ × ℚ

/-- The four corner points of a rectangle: the coordinate sequence shapely
stores for a box polygon. -/
def Rect.corners (r : Rect) : Finset Pt :=
  {(r.x1, r.y1), (r.x1, r.y2), (r.x2, r.y1), (r.x2, r.y2)}

/-- A geometry: a finite union of closed rectangles. -/
abbrev Geom : Type := Finset Rect

/-- The vertex set of a geometry, i.e. the coordinate points of its polygon
representation.  `libpysal.weights.Queen` extracts exactly these. -/
def verts (g : Geom) : Finset Pt := g.biUnion Rect.corners

/-- Queen contiguity as computed by `libpysal.weights.Queen.from_dataframe`
(source line 47 and line 315): two geometries are neighbours iff they share at
least one vertex. -/
def queen (g h : Geom) : Bool := decide ((verts g ∩ verts h).Nonempty)

/-- Membership of a point in a closed rectangle. -/
def Rect.containsPt (r : Rect) (p : Pt) : Prop :=
  r.x1 ≤ p.1 ∧ p.1 ≤ r.x2 ∧ r.y1 ≤ p.2 ∧ p.2 ≤ r.y2

instance (r : Rect) (p : Pt) : Decidable (r.containsPt p) := by
  unfold Rect.containsPt
  infer_instance

/-- Membership of a point in the topological boundary of a (well-formed)
rectangle: on the rectangle, and on one of its four edge lines. -/
def Rect.onBoundary (r : Rect) (p : Pt) : Prop :=
  r.containsPt p ∧ (p.1 = r.x1 ∨ p.1 = r.x2 ∨ p.2 = r.y1 ∨ p.2 = r.y2)

instance (r : Rect) (p : Pt) : Decidable (r.onBoundary p) := by
  unfold Rect.onBoundary
  infer_instance

/-- "The boundaries of `g` and `h` share at least one point" — the contiguity
rule stated by the specification (§4.3): vertex-touch or edge-touch both
qualify. -/
def boundariesTouch (g h : Geom) : Prop :=
  ∃ p : Pt, (∃ r ∈ g, r.onBoundary p) ∧ (∃ r ∈ h, r.onBoundary p)

/-- Closed-intersection test of a rectangle against a box, as evaluated by
`shapely`'s `intersects` predicate on well-formed boxes (touching counts). -/
def Rect.meets (r b : Rect) : Bool :=
  decide (r.x1 ≤ b.x2 ∧ b.x1 ≤ r.x2 ∧ r.y1 ≤ b.y2 ∧ b.y1 ≤ r.y2)

/-- `gdf.intersects(chunk_box)` for one geometry (source line 99). -/
def geomMeets (g : Geom) (b : Rect) : Bool :=
  decide (∃ r ∈ g, r.meets b = true)

/-- Well-formedness of a rectangle: non-degenerate interval order. -/
def Rect.WFR (r : Rect) : Prop := r.x1 ≤ r.x2 ∧ r.y1 ≤ r.y2

/-! ## Data model

`Feature` is one row of the input GeoDataFrame: a `gridcode` category and a
geometry (spec §3).  `MergedRow` is one row of a merged result frame:
`gridcode`, geometry and `merged_count` (spec §3, `MergedFeature`). -/

/-- An input feature row: category code and geometry. -/
structure Feature where
  gridcode : ℤ
  geom : Geom
deriving DecidableEq

/-- A merged output row: category code, dissolved geometry, number of source
rows absorbed. -/
structure MergedRow where
  gridcode : ℤ
  geom : Geom
  merged_count : ℕ
deriving DecidableEq

/-- Forgetting the count: how a `MergedRow` re-enters the engine as an input
feature when the output file is fed back (the dissolve in `process_chunk`
keeps only the aggregated columns, so the incoming `merged_count` column is
not consulted). -/
def MergedRow.toFeature (m : MergedRow) : Feature :=
  { gridcode := m.gridcode, geom := m.geom }

/-! ## Spatial partitioner (`create_spatial_chunks`, source lines 71-104) -/

/-- All rectangles of all geometries in a frame. -/
def allRects (gdf : List Feature) : Finset Rect :=
  gdf.foldr (fun f acc => f.geom ∪ acc) ∅

/-- `gdf.total_bounds` (source line 76): the union bounding box
`(minx, miny, maxx, maxy)`, i.e. the coordinatewise min/max over all stored
rectangles.  On a frame with no coordinates geopandas produces NaN bounds;
every subsequent `intersects` test is then false, which the model captures by
`none` (see `create_spatial_chunks`). -/
def totalBounds (gdf : List Feature) : Option Rect :=
  if h : (allRects gdf).Nonempty then
    some { x1 := ((allRects gdf).image Rect.x1).min' (h.image _),
           y1 := ((allRects gdf).image Rect.y1).min' (h.image _),
           x2 := ((allRects gdf).image Rect.x2).max' (h.image _),
           y2 := ((allRects gdf).image Rect.y2).max' (h.image _) }
  else none

/-- Kernel-computable integer square root (largest `m` with `m * m ≤ k`);
proven equal to `Nat.sqrt` in `natSqrt_eq`. -/
def natSqrt (k : ℕ) : ℕ :=
  (List.range (k + 1)).foldl (fun acc m => if m * m ≤ k then m else acc) 0

/-- `int(np.ceil(np.sqrt(num_chunks)))` (source line 80). -/
def chunksPerSide (k : ℕ) : ℕ :=
  if natSqrt k * natSqrt k = k then natSqrt k else natSqrt k + 1

/-- The grid cell at position `(i, j)` (source lines 83-96): cell width is
`(maxx - minx) / chunks_per_side`, cell height `(maxy - miny) /
chunks_per_side`, and the cell box spans one width/height from its lower-left
corner. -/
def cellBox (tb : Rect) (s : ℕ) (i j : ℕ) : Rect :=
  { x1 := qadd tb.x1 (qmulN i (qdivN (qsub tb.x2 tb.x1) s)),
    y1 := qadd tb.y1 (qmulN j (qdivN (qsub tb.y2 tb.y1) s)),
    x2 := qadd (qadd tb.x1 (qmulN i (qdivN (qsub tb.x2 tb.x1) s)))
      (qdivN (qsub tb.x2 tb.x1) s),
    y2 := qadd (qadd tb.y1 (qmulN j (qdivN (qsub tb.y2 tb.y1) s)))
      (qdivN (qsub tb.y2 tb.y1) s) }

/-- `create_spatial_chunks` (source lines 71-104): for every of the `s × s`
grid cells, the sub-frame of features intersecting the cell box, dropping
empty cells.  The `none`-bounds case (no coordinates at all) yields `[]`,
matching the NaN propagation of the source. -/
def create_spatial_chunks (gdf : List Feature) (num_chunks : ℕ) : List (List Feature) :=
  match totalBounds gdf with
  | none => []
  | some tb =>
    let s := chunksPerSide num_chunks
    (((List.range s).map (fun i => (List.range s).map (fun j =>
        gdf.filter (fun f => geomMeets f.geom (cellBox tb s i j))))).flatten).filter
      (fun c => ¬ c.isEmpty)

/-! ## Connected components (`libpysal.weights.Queen` + `component_labels`)

`W.component_labels` labels each row with its connected component in the
contiguity graph, components numbered in order of first occurrence; the
subsequent `dissolve(by='component_id')` therefore emits one row per
component, ordered by the least row index of the component.  We compute the
reachable set of each row by iterating a one-step expansion `l.length` times
and take as component representatives the rows that are minimal in their
reachable set. -/

section Components

variable {α : Type} [DecidableEq α]

/-- One expansion step: add every row adjacent to the current set. -/
def cstep (adj : α → α → Bool) (l : List α) (s : Finset (Fin l.length)) :
    Finset (Fin l.length) :=
  s ∪ Finset.univ.filter (fun j => ∃ i ∈ s, adj (l.get i) (l.get j) = true)

/-- All rows reachable from row `i` in the contiguity graph of `l`. -/
def reach (adj : α → α → Bool) (l : List α) (i : Fin l.length) :
    Finset (Fin l.length) :=
  (cstep adj l)^[l.length] {i}

/-- The least row index of each component, in ascending order: the rows at
which `component_labels` introduces a new label. -/
def compReps (adj : α → α → Bool) (l : List α) : List (Fin l.length) :=
  (List.finRange l.length).filter (fun i => decide (∀ j ∈ reach adj l i, i ≤ j))

end Components

/-- Queen adjacency between two features. -/
def queenF (a b : Feature) : Bool := queen a.geom b.geom

/-- Queen adjacency between two merged rows. -/
def queenM (a b : MergedRow) : Bool := queen a.geom b.geom

/-- The merged row of the component of `l` whose representative is the row
index `r`: geometry the union of the member geometries, `gridcode` the first
member's (`'gridcode': 'first'`), `merged_count` the number of member rows
(`'temp_id': 'count'`). -/
def rowFor (l : List Feature) (r : Fin l.length) : MergedRow :=
  { gridcode := (l.get r).gridcode,
    geom := (reach queenF l r).biUnion (fun i => (l.get i).geom),
    merged_count := (reach queenF l r).card }

/-- The dissolve of `process_chunk` (source lines 54-60): one output row per
component, in first-occurrence order of the component labels. -/
def dissolve_count (l : List Feature) : List MergedRow :=
  (compReps queenF l).map (rowFor l)

/-- The merged row of the component of `m` represented by `r` in the
cross-chunk merge: `merged_count` is the *sum* of the member counts
(`'merged_count': 'sum'`). -/
def rowSumFor (m : List MergedRow) (r : Fin m.length) : MergedRow :=
  { gridcode := (m.get r).gridcode,
    geom := (reach queenM m r).biUnion (fun i => (m.get i).geom),
    merged_count := ∑ i ∈ reach queenM m r, (m.get i).merged_count }

/-- The dissolve of the cross-chunk merge (source lines 322-325). -/
def dissolve_sum (m : List MergedRow) : List MergedRow :=
  (compReps queenM m).map (rowSumFor m)

/-- `process_chunk` (source lines 22-68): filter the chunk by gridcode,
return `None` on an empty selection, otherwise repair (identity here), build
Queen weights, label components and dissolve with a member count. -/
def process_chunk (chunk_gdf : List Feature) (gridcode : ℤ) : Option (List MergedRow) :=
  let filtered := chunk_gdf.filter (fun f => decide (f.gridcode = gridcode))
  if filtered.isEmpty then none
  else some (dissolve_count filtered)

/-- Result of the per-gridcode loop body: the rows appended to
`all_merged_dfs` and the recorded `merged_features` statistic. -/
structure CodeResult where
  rows : List MergedRow
  merged_features : ℕ
deriving DecidableEq

/-- The body of the per-gridcode loop of `merge_grid` (source lines 278-336):
skip codes with no features; process every chunk, keeping non-`None`,
non-empty results; concatenate; re-merge across chunk boundaries with a
summed count, falling back to the concatenated per-chunk rows when the global
`Queen` raises (modelled by the oracle `fail`). -/
def processCode (gdf : List Feature) (chunks : List (List Feature)) (fail : ℤ → Bool)
    (code : ℤ) : CodeResult :=
  if gdf.countP (fun f => decide (f.gridcode = code)) = 0 then ⟨[], 0⟩
  else
    let chunkResults := (chunks.filterMap (fun ch => process_chunk ch code)).filter
      (fun r => ¬ r.isEmpty)
    if chunkResults.isEmpty then ⟨[], 0⟩
    else
      let mergedDf := chunkResults.flatten
      if fail code then ⟨mergedDf, mergedDf.length⟩
      else
        let finalMerged := dissolve_sum mergedDf
        ⟨finalMerged, finalMerged.length⟩

/-! ## Output serializer and `merge_grid` -/

/-- The `geo` metadata block written into the parquet schema
(source lines 170-180). -/
structure GeoColumnMeta where
  primary_column : String
  encoding : String
  crs : String
deriving DecidableEq

/-- The written GeoParquet file: its rows and its spatial metadata. -/
structure OutFile where
  rows : List MergedRow
  geo : GeoColumnMeta
deriving DecidableEq

/-- `write_duckdb_compatible_geoparquet` (source lines 107-197) on a frame
whose CRS is already EPSG:4326 (the only way the engine calls it): the rows
are converted to WKB (lossless here; no null or invalid geometry exists on
this geometry type) and the file carries the fixed `geo` metadata naming the
primary geometry column, the WKB encoding and the EPSG:4326 CRS. -/
def write_duckdb_compatible_geoparquet (rows : List MergedRow) : OutFile :=
  { rows := rows,
    geo := { primary_column := "geometry", encoding := "WKB", crs := "EPSG:4326" } }

/-- One entry of `merge_stats` (source lines 261-262). -/
structure StatsEntry where
  original_features : ℕ
  merged_features : ℕ
deriving DecidableEq

/-- The observable result of a successful `merge_grid` run: the written file,
the `merge_stats` record, the key set of the returned `metadata` dictionary
and the number of spatial chunks used. -/
structure RunResult where
  file : OutFile
  merge_stats : List (ℤ × StatsEntry)
  metadataKeys : List String
  num_chunks_used : ℕ
deriving DecidableEq

/-- The dictionary keys of the returned `metadata` after the three updates of
source lines 423-426 (`dict` assignment appends a key only when absent). -/
def updatedMetaKeys (inputMetaKeys : List String) : List String :=
  inputMetaKeys ++ (["merged_features_count", "merge_stats",
    "processing_time_seconds"].filter (fun s => ¬ inputMetaKeys.contains s))

/-- The body of `merge_grid` after the CRS guard (source lines 257-432). -/
def mergeGridRun (gdf : List Feature) (num_chunks : ℕ) (fail : ℤ → Bool)
    (inputMetaKeys : List String) : RunResult :=
  let chunks := create_spatial_chunks gdf num_chunks
  let r12 := processCode gdf chunks fail 12
  let r60 := processCode gdf chunks fail 60
  let allMerged := r12.rows ++ r60.rows
  { file := write_duckdb_compatible_geoparquet allMerged,
    merge_stats :=
      [(12, ⟨gdf.countP (fun f => decide (f.gridcode = 12)), r12.merged_features⟩),
       (60, ⟨gdf.countP (fun f => decide (f.gridcode = 60)), r60.merged_features⟩)],
    metadataKeys := updatedMetaKeys inputMetaKeys,
    num_chunks_used := chunks.length }

/-- The CRS abort message of source lines 36, 122 and 253. -/
def crsErrorMsg (c : ℕ) : String :=
  s!"Unexpected CRS EPSG:{c} - Pipeline requires EPSG:4326"

/-- `merge_grid` (source lines 200-432): a missing CRS is assigned EPSG:4326
and processing continues; a CRS other than EPSG:4326 aborts with a
`ValueError` before any output file is produced; otherwise the merge runs and
a file is always written (an empty frame with the correct schema when there
is nothing to merge, source lines 352-361). -/
def merge_grid (crs : Option ℕ) (gdf : List Feature) (num_chunks : ℕ) (fail : ℤ → Bool)
    (inputMetaKeys : List String) : Except String RunResult :=
  match crs with
  | none => Except.ok (mergeGridRun gdf num_chunks fail inputMetaKeys)
  | some c =>
    if c = 4326 then Except.ok (mergeGridRun gdf num_chunks fail inputMetaKeys)
    else Except.error (crsErrorMsg c)

/-- The `s × s` grid cells of the partitioner, in iteration order
(`i` outer, `j` inner, source lines 87-96). -/
def cellList (tb : Rect) (s : ℕ) : List Rect :=
  ((List.range s).map (fun i => (List.range s).map (fun j => cellBox tb s i j))).flatten


/-! ## Concrete frames used in counterexamples and witnesses -/

/-- A stitch oracle under which no global re-merge raises. -/
def noFail : ℤ → Bool := fun _ => false

/-- A stitch oracle under which every global re-merge raises. -/
def allFail : ℤ → Bool := fun _ => true

/-- One category-12 feature whose rectangle `[0,2] × [0,1]` intersects all
four cells of a 4-chunk partition of its own bounding box. -/
def wideFrame : List Feature := [{ gridcode := 12, geom := {⟨0, 0, 2, 1⟩} }]

/-- Two category-12 unit squares sharing exactly the corner `(1, 1)`. -/
def twoSquares : List Feature :=
  [{ gridcode := 12, geom := {⟨0, 0, 1, 1⟩} }, { gridcode := 12, geom := {⟨1, 1, 2, 2⟩} }]

/-- The union bounding box of `twoSquares`. -/
def twoSquaresTB : Rect := ⟨0, 0, 2, 2⟩

/-- Four category-12 unit squares tiling `[0,2] × [0,2]`: one Queen
component split across all four cells of a 4-chunk partition. -/
def fourSquares : List Feature :=
  [{ gridcode := 12, geom := {⟨0, 0, 1, 1⟩} }, { gridcode := 12, geom := {⟨1, 0, 2, 1⟩} },
   { gridcode := 12, geom := {⟨0, 1, 1, 2⟩} }, { gridcode := 12, geom := {⟨1, 1, 2, 2⟩} }]

/-- Two category-12 squares touching along an edge segment that holds no
corner of either: Queen contiguity sees no shared vertex here. -/
def edgeSquares : List Feature :=
  [{ gridcode := 12, geom := {⟨0, 0, 1, 1⟩} },
   { gridcode := 12, geom := {⟨1, mkRat 1 2, 2, mkRat 3 2⟩} }]


/-! ## Derived notions used by the verification -/

/-- The index-level contiguity relation of a row list. -/
def adjRel {α : Type} (adj : α → α → Bool) (l : List α) (a b : Fin l.length) : Prop :=
  adj (l.get a) (l.get b) = true

/-- The element-level contiguity relation: both features occur in the list
and are Queen-adjacent. -/
def elemAdj {α : Type} (adj : α → α → Bool) (l : List α) (a b : α) : Prop :=
  a ∈ l ∧ b ∈ l ∧ adj a b = true

/-- Element-level connectivity within a list. -/
def elemRTG {α : Type} (adj : α → α → Bool) (l : List α) : α → α → Prop :=
  Relation.ReflTransGen (elemAdj adj l)

instance (r : Rect) : Decidable r.WFR := by
  unfold Rect.WFR
  infer_instance

/-- Well-formedness of a frame: every stored rectangle has ordered
coordinates and every geometry is nonempty (the post-repair invariant of
spec §3). -/
def FrameWF (gdf : List Feature) : Prop :=
  ∀ f ∈ gdf, (∀ r ∈ f.geom, r.WFR) ∧ f.geom.Nonempty

instance (gdf : List Feature) : Decidable (FrameWF gdf) := by
  unfold FrameWF
  infer_instance

/-- The rows of one gridcode (`gdf[gdf['gridcode'] == code]`). -/
def codeList (gdf : List Feature) (code : ℤ) : List Feature :=
  gdf.filter (fun f => decide (f.gridcode = code))

/-- The concatenated per-chunk merge results for one gridcode
(`pd.concat(chunk_results)` of source line 307). -/
def mergedDfOf (gdf : List Feature) (k : ℕ) (code : ℤ) : List MergedRow :=
  (((create_spatial_chunks gdf k).filterMap (fun ch => process_chunk ch code)).filter
    (fun r => ¬ r.isEmpty)).flatten

/-- The geometry of the connected component of `lc.get i` in the global
per-code Queen graph: the reference value for the engine's output
geometries. -/
def classGeomIdx (l : List Feature) (i : Fin l.length) : Geom :=
  (reach queenF l i).biUnion (fun t => (l.get t).geom)

/-- The set of component geometries of the global per-code Queen graph. -/
def classGeoms (l : List Feature) : Finset Geom :=
  Finset.univ.image (classGeomIdx l)

/-! ## Bridge lemmas and arithmetic facts -/

theorem qadd_eq (a b : ℚ) : qadd a b = a + b := by
  have ha : (a.den : ℚ) ≠ 0 := by exact_mod_cast a.den_ne_zero
  have hb : (b.den : ℚ) ≠ 0 := by exact_mod_cast b.den_ne_zero
  rw [qadd, Rat.mkRat_eq_divInt, Rat.divInt_eq_div]
  conv_rhs => rw [← Rat.num_div_den a, ← Rat.num_div_den b]
  rw [div_add_div _ _ ha hb]
  push_cast
  ring_nf

theorem qsub_eq (a b : ℚ) : qsub a b = a - b := by
  have ha : (a.den : ℚ) ≠ 0 := by exact_mod_cast a.den_ne_zero
  have hb : (b.den : ℚ) ≠ 0 := by exact_mod_cast b.den_ne_zero
  rw [qsub, Rat.mkRat_eq_divInt, Rat.divInt_eq_div]
  conv_rhs => rw [← Rat.num_div_den a, ← Rat.num_div_den b]
  rw [div_sub_div _ _ ha hb]
  push_cast
  ring_nf

theorem qdivN_eq (a : ℚ) (s : ℕ) : qdivN a s = a / (s : ℚ) := by
  rw [qdivN, Rat.mkRat_eq_divInt, Rat.divInt_eq_div]
  push_cast
  rw [← div_div, Rat.num_div_den]

theorem qmulN_eq (i : ℕ) (a : ℚ) : qmulN i a = (i : ℚ) * a := by
  rw [qmulN, Rat.mkRat_eq_divInt, Rat.divInt_eq_div]
  push_cast
  rw [mul_div_assoc, Rat.num_div_den]

theorem qmin_eq (a b : ℚ) : qmin a b = min a b := by
  rw [qmin, min_def]

theorem qmax_eq (a b : ℚ) : qmax a b = max a b := by
  rw [qmax, max_def]

theorem foldl_sqstep_const (k : ℕ) (l : List ℕ) (acc : ℕ)
    (h : ∀ m ∈ l, ¬ m * m ≤ k) :
    l.foldl (fun acc m => if m * m ≤ k then m else acc) acc = acc := by
  induction l generalizing acc with
  | nil => rfl
  | cons m t ih =>
    simp only [List.foldl_cons, if_neg (h m (List.mem_cons_self m t))]
    exact ih acc (fun x hx => h x (List.mem_cons_of_mem m hx))

theorem natSqrt_eq (k : ℕ) : natSqrt k = Nat.sqrt k := by
  have hsplit : k + 1 = (Nat.sqrt k + 1) + (k - Nat.sqrt k) := by
    have := Nat.sqrt_le_self k
    omega
  rw [natSqrt, hsplit, List.range_add, List.foldl_append]
  rw [List.range_succ, List.foldl_append]
  have hstep : (List.foldl (fun acc m => if m * m ≤ k then m else acc) 0
      (List.range (Nat.sqrt k))) = (List.foldl (fun acc m => if m * m ≤ k then m else acc) 0
      (List.range (Nat.sqrt k))) := rfl
  simp only [List.foldl_cons, List.foldl_nil]
  rw [if_pos (Nat.sqrt_le k)]
  apply foldl_sqstep_const
  intro m hm
  simp only [List.mem_map, List.mem_range] at hm
  obtain ⟨i, _, rfl⟩ := hm
  have : Nat.sqrt k < Nat.sqrt k + 1 + i := by omega
  have := Nat.sqrt_lt.mp this
  omega

/-- `chunksPerSide` is the ceiling of the real square root. -/
theorem chunksPerSide_eq (k : ℕ) :
    chunksPerSide k = if Nat.sqrt k * Nat.sqrt k = k then Nat.sqrt k else Nat.sqrt k + 1 := by
  rw [chunksPerSide, natSqrt_eq]

/-! ## Properties of the component machinery -/

section ComponentLemmas

variable {α : Type} [DecidableEq α] (adj : α → α → Bool) (l : List α)

theorem mem_cstep {s : Finset (Fin l.length)} {j : Fin l.length} :
    j ∈ cstep adj l s ↔ j ∈ s ∨ ∃ i ∈ s, adj (l.get i) (l.get j) = true := by
  simp [cstep]

theorem subset_cstep (s : Finset (Fin l.length)) : s ⊆ cstep adj l s := by
  intro j hj
  exact (mem_cstep adj l).mpr (Or.inl hj)

theorem cstep_mono {s t : Finset (Fin l.length)} (h : s ⊆ t) :
    cstep adj l s ⊆ cstep adj l t := by
  intro j hj
  rcases (mem_cstep adj l).mp hj with hj | ⟨i, hi, hadj⟩
  · exact (mem_cstep adj l).mpr (Or.inl (h hj))
  · exact (mem_cstep adj l).mpr (Or.inr ⟨i, h hi, hadj⟩)

theorem subset_cstep_iterate (s : Finset (Fin l.length)) (m : ℕ) :
    s ⊆ (cstep adj l)^[m] s := by
  induction m with
  | zero => simp
  | succ p ih =>
    rw [Function.iterate_succ_apply']
    exact ih.trans (subset_cstep adj l _)

theorem exists_fixed_step (i : Fin l.length) :
    ∃ m, m ≤ l.length ∧ (cstep adj l)^[m + 1] {i} = (cstep adj l)^[m] {i} := by
  by_contra hcon
  push_neg at hcon
  have key : ∀ m, m ≤ l.length → m + 1 ≤ ((cstep adj l)^[m] ({i} : Finset (Fin l.length))).card := by
    intro m
    induction m with
    | zero => simp
    | succ p ih =>
      intro hp
      have h1 : p + 1 ≤ ((cstep adj l)^[p] ({i} : Finset (Fin l.length))).card :=
        ih (Nat.le_of_succ_le hp)
      have hss : (cstep adj l)^[p] ({i} : Finset (Fin l.length)) ⊂
          (cstep adj l)^[p + 1] ({i} : Finset (Fin l.length)) := by
        rw [Function.iterate_succ_apply']
        refine ⟨subset_cstep adj l _, ?_⟩
        intro hsub
        have : (cstep adj l)^[p + 1] ({i} : Finset (Fin l.length)) =
            (cstep adj l)^[p] ({i} : Finset (Fin l.length)) := by
          rw [Function.iterate_succ_apply']
          exact le_antisymm hsub (subset_cstep adj l _)
        exact hcon p (Nat.le_of_succ_le hp) this
      have := Finset.card_lt_card hss
      omega
  have h1 := key l.length le_rfl
  have h2 : ((cstep adj l)^[l.length] ({i} : Finset (Fin l.length))).card ≤ l.length := by
    have := Finset.card_le_univ ((cstep adj l)^[l.length] ({i} : Finset (Fin l.length)))
    simpa using this
  omega

theorem reach_fixed (i : Fin l.length) :
    cstep adj l (reach adj l i) = reach adj l i := by
  obtain ⟨m, hm, hfix⟩ := exists_fixed_step adj l i
  have hfix' : cstep adj l ((cstep adj l)^[m] {i}) = (cstep adj l)^[m] {i} :=
    (Function.iterate_succ_apply' (cstep adj l) m {i}).symm.trans hfix
  have h3 : (cstep adj l)^[l.length - m + m] ({i} : Finset (Fin l.length)) =
      (cstep adj l)^[m] ({i} : Finset (Fin l.length)) := by
    rw [Function.iterate_add_apply]
    exact Function.iterate_fixed hfix' (l.length - m)
  have h4 : l.length - m + m = l.length := by omega
  rw [h4] at h3
  rw [reach, h3, hfix']

theorem mem_reach_self (i : Fin l.length) : i ∈ reach adj l i :=
  subset_cstep_iterate adj l {i} l.length (Finset.mem_singleton_self i)

theorem mem_reach_iff {i j : Fin l.length} :
    j ∈ reach adj l i ↔ Relation.ReflTransGen (adjRel adj l) i j := by
  constructor
  · have : ∀ m (j : Fin l.length), j ∈ (cstep adj l)^[m] ({i} : Finset (Fin l.length)) →
        Relation.ReflTransGen (adjRel adj l) i j := by
      intro m
      induction m with
      | zero =>
        intro j hj
        simp only [Function.iterate_zero_apply, Finset.mem_singleton] at hj
        exact hj ▸ Relation.ReflTransGen.refl
      | succ p ih =>
        intro j hj
        rw [Function.iterate_succ_apply'] at hj
        rcases (mem_cstep adj l).mp hj with hj | ⟨a, ha, hadj⟩
        · exact ih j hj
        · exact Relation.ReflTransGen.tail (ih a ha) hadj
    exact this l.length j
  · intro h
    induction h with
    | refl => exact mem_reach_self adj l i
    | tail _ hadj ih =>
      have := (mem_cstep adj l).mpr (Or.inr ⟨_, ih, hadj⟩)
      rwa [reach_fixed adj l i] at this

end ComponentLemmas

section SymmetricComponentLemmas

variable {α : Type} [DecidableEq α] (adj : α → α → Bool) (l : List α)

theorem reach_symm_mem (hs : ∀ a b : α, adj a b = adj b a) {i j : Fin l.length}
    (h : j ∈ reach adj l i) : i ∈ reach adj l j := by
  rw [mem_reach_iff] at h ⊢
  have hsym : Symmetric (adjRel adj l) := by
    intro a b hab
    unfold adjRel at hab ⊢
    rw [hs]
    exact hab
  exact Relation.ReflTransGen.symmetric hsym h

theorem reach_trans_mem {i j c : Fin l.length} (h1 : j ∈ reach adj l i)
    (h2 : c ∈ reach adj l j) : c ∈ reach adj l i := by
  rw [mem_reach_iff] at h1 h2 ⊢
  exact h1.trans h2

theorem reach_eq_of_mem (hs : ∀ a b : α, adj a b = adj b a) {i j : Fin l.length}
    (h : j ∈ reach adj l i) : reach adj l i = reach adj l j := by
  ext c
  constructor
  · intro hc
    exact reach_trans_mem adj l (reach_symm_mem adj l hs h) hc
  · intro hc
    exact reach_trans_mem adj l h hc

theorem mem_compReps_iff {r : Fin l.length} :
    r ∈ compReps adj l ↔ ∀ j ∈ reach adj l r, r ≤ j := by
  unfold compReps
  simp [List.mem_filter, List.mem_finRange]

theorem exists_rep (hs : ∀ a b : α, adj a b = adj b a) (i : Fin l.length) :
    ∃ r ∈ compReps adj l, reach adj l r = reach adj l i ∧ i ∈ reach adj l r := by
  have hne : (reach adj l i).Nonempty := ⟨i, mem_reach_self adj l i⟩
  set r := (reach adj l i).min' hne with hr
  have hrmem : r ∈ reach adj l i := (reach adj l i).min'_mem hne
  have hreq : reach adj l i = reach adj l r := reach_eq_of_mem adj l hs hrmem
  refine ⟨r, ?_, hreq.symm, ?_⟩
  · rw [mem_compReps_iff]
    intro j hj
    rw [← hreq] at hj
    exact (reach adj l i).min'_le j hj
  · rw [← hreq]
    exact mem_reach_self adj l i

theorem rep_eq_of_mem_both (hs : ∀ a b : α, adj a b = adj b a)
    {r r' : Fin l.length} (hr : r ∈ compReps adj l)
    (hr' : r' ∈ compReps adj l) {x : Fin l.length} (hx : x ∈ reach adj l r)
    (hx' : x ∈ reach adj l r') : r = r' := by
  have h1 : reach adj l r = reach adj l x := reach_eq_of_mem adj l hs hx
  have h2 : reach adj l r' = reach adj l x := reach_eq_of_mem adj l hs hx'
  have hrr : r ∈ reach adj l r' := by
    rw [h2, ← h1]
    exact mem_reach_self adj l r
  have hr'r : r' ∈ reach adj l r := by
    rw [h1, ← h2]
    exact mem_reach_self adj l r'
  have := (mem_compReps_iff adj l).mp hr r' hr'r
  have := (mem_compReps_iff adj l).mp hr' r hrr
  omega

theorem compReps_nodup : (compReps adj l).Nodup :=
  (List.nodup_finRange l.length).filter _

theorem classes_cover (hs : ∀ a b : α, adj a b = adj b a) (i : Fin l.length) :
    ∃ r ∈ compReps adj l, i ∈ reach adj l r := by
  obtain ⟨r, hr, _, hi⟩ := exists_rep adj l hs i
  exact ⟨r, hr, hi⟩

theorem sum_reach_card (hs : ∀ a b : α, adj a b = adj b a) :
    ((compReps adj l).map (fun r => (reach adj l r).card)).sum = l.length := by
  classical
  have hnd := compReps_nodup adj l
  rw [← List.sum_toFinset _ hnd]
  have hdisjoint : ∀ r ∈ (compReps adj l).toFinset, ∀ r' ∈ (compReps adj l).toFinset,
      r ≠ r' → Disjoint (reach adj l r) (reach adj l r') := by
    intro r hr r' hr' hne
    rw [List.mem_toFinset] at hr hr'
    refine Finset.disjoint_left.mpr ?_
    intro x hx hx'
    exact hne (rep_eq_of_mem_both adj l hs hr hr' hx hx')
  have hcover : (compReps adj l).toFinset.biUnion (reach adj l) = Finset.univ := by
    ext i
    simp only [Finset.mem_biUnion, List.mem_toFinset, Finset.mem_univ, iff_true]
    exact classes_cover adj l hs i
  have hcard := Finset.card_biUnion hdisjoint
  rw [← hcard, hcover]
  simp

end SymmetricComponentLemmas

section WeightedSum

variable {α : Type} [DecidableEq α] (adj : α → α → Bool) (l : List α)

theorem sum_reach_weight (hs : ∀ a b : α, adj a b = adj b a) (f : Fin l.length → ℕ) :
    ((compReps adj l).map (fun r => ∑ i ∈ reach adj l r, f i)).sum = ∑ i : Fin l.length, f i := by
  classical
  rw [← List.sum_toFinset _ (compReps_nodup adj l)]
  have hdisjoint : ∀ r ∈ (compReps adj l).toFinset, ∀ r' ∈ (compReps adj l).toFinset,
      r ≠ r' → Disjoint (reach adj l r) (reach adj l r') := by
    intro r hr r' hr' hne
    rw [List.mem_toFinset] at hr hr'
    refine Finset.disjoint_left.mpr ?_
    intro x hx hx'
    exact hne (rep_eq_of_mem_both adj l hs hr hr' hx hx')
  have hcover : (compReps adj l).toFinset.biUnion (reach adj l) = Finset.univ := by
    ext i
    simp only [Finset.mem_biUnion, List.mem_toFinset, Finset.mem_univ, iff_true]
    exact classes_cover adj l hs i
  rw [← Finset.sum_biUnion hdisjoint, hcover]

end WeightedSum

/-! ## Sum lemmas for the dissolves and the per-code loop -/

theorem queen_symm (g h : Geom) : queen g h = queen h g := by
  simp [queen, Finset.inter_comm]

theorem queenF_symm (a b : Feature) : queenF a b = queenF b a := queen_symm _ _

theorem queenM_symm (a b : MergedRow) : queenM a b = queenM b a := queen_symm _ _

/-- Sum of a list map through `Fin`-indexed sums. -/
theorem list_sum_map_eq_sum_get {α : Type} (l : List α) (f : α → ℕ) :
    (l.map f).sum = ∑ i : Fin l.length, f (l.get i) := by
  conv_lhs => rw [← List.ofFn_get l]
  rw [List.map_ofFn, List.sum_ofFn]
  rfl

/-- Count conservation inside one chunk dissolve: the `merged_count`s of
`dissolve_count l` sum to the number of rows of `l`. -/
theorem dissolve_count_sum (l : List Feature) :
    ((dissolve_count l).map MergedRow.merged_count).sum = l.length := by
  rw [dissolve_count, List.map_map]
  have h1 : (MergedRow.merged_count ∘ rowFor l) = fun r => (reach queenF l r).card := rfl
  rw [h1]
  exact sum_reach_card queenF l queenF_symm

/-- Count conservation of the cross-chunk dissolve: the `merged_count`s of
`dissolve_sum m` sum to the total of the incoming `merged_count`s. -/
theorem dissolve_sum_sum (m : List MergedRow) :
    ((dissolve_sum m).map MergedRow.merged_count).sum = (m.map MergedRow.merged_count).sum := by
  rw [dissolve_sum, List.map_map]
  have h1 : (MergedRow.merged_count ∘ rowSumFor m) =
      fun r => ∑ i ∈ reach queenM m r, (m.get i).merged_count := rfl
  rw [h1, sum_reach_weight queenM m queenM_symm, list_sum_map_eq_sum_get]

theorem dissolve_count_ne_nil {l : List Feature} (h : l ≠ []) : dissolve_count l ≠ [] := by
  have hlen : 0 < l.length := List.length_pos.mpr h
  obtain ⟨r, hr, _⟩ := classes_cover queenF l queenF_symm ⟨0, hlen⟩
  rw [dissolve_count]
  intro hcon
  rw [List.map_eq_nil] at hcon
  rw [hcon] at hr
  exact (List.not_mem_nil _) hr

theorem process_chunk_eq_none_iff (ch : List Feature) (code : ℤ) :
    process_chunk ch code = none ↔
      ch.countP (fun f => decide (f.gridcode = code)) = 0 := by
  rw [process_chunk, List.countP_eq_length_filter]
  by_cases hc : (ch.filter (fun f => decide (f.gridcode = code))).isEmpty
  · rw [if_pos hc]
    simp [List.isEmpty_iff.mp hc]
  · rw [if_neg hc]
    constructor
    · intro h
      exact absurd h (Option.some_ne_none _)
    · intro h
      exact absurd (List.isEmpty_iff.mpr (List.length_eq_zero.mp h)) hc

theorem process_chunk_some_facts {ch : List Feature} {code : ℤ} {rows : List MergedRow}
    (h : process_chunk ch code = some rows) :
    rows = dissolve_count (ch.filter (fun f => decide (f.gridcode = code))) ∧ rows ≠ [] := by
  rw [process_chunk] at h
  by_cases hc : (ch.filter (fun f => decide (f.gridcode = code))).isEmpty
  · rw [if_pos hc] at h
    exact absurd h (Option.noConfusion)
  · rw [if_neg hc] at h
    have hrows := Option.some.inj h
    subst hrows
    refine ⟨rfl, dissolve_count_ne_nil ?_⟩
    simpa [List.isEmpty_iff] using hc

/-- The total `merged_count` collected over the surviving chunk results equals
the number of gridcode-matching rows over all chunks. -/
theorem chunkResults_sum (chunks : List (List Feature)) (code : ℤ) :
    ((((chunks.filterMap (fun ch => process_chunk ch code)).filter
        (fun r => ¬ r.isEmpty)).map (fun rows => (rows.map MergedRow.merged_count).sum)).sum)
      = (chunks.map (fun ch => ch.countP (fun f => decide (f.gridcode = code)))).sum := by
  induction chunks with
  | nil => rfl
  | cons ch t ih =>
    rw [List.map_cons, List.sum_cons, List.filterMap_cons]
    cases hpc : process_chunk ch code with
    | none =>
      rw [(process_chunk_eq_none_iff ch code).mp hpc]
      simpa using ih
    | some rows =>
      obtain ⟨hrows, hne⟩ := process_chunk_some_facts hpc
      have hkeep : ¬ rows.isEmpty := by simpa [List.isEmpty_iff] using hne
      rw [List.filter_cons, if_pos (by simpa using hkeep)]
      rw [List.map_cons, List.sum_cons, ih]
      congr 1
      rw [hrows, dissolve_count_sum, List.countP_eq_length_filter]

/-- The rows returned for one gridcode always carry a total `merged_count`
equal to the number of matching rows summed over all chunks — on the clean
path and on the fallback path alike. -/
theorem processCode_sum (gdf : List Feature) (chunks : List (List Feature))
    (fail : ℤ → Bool) (code : ℤ)
    (hch : gdf.countP (fun f => decide (f.gridcode = code)) = 0 →
      ∀ ch ∈ chunks, ch.countP (fun f => decide (f.gridcode = code)) = 0) :
    (((processCode gdf chunks fail code).rows.map MergedRow.merged_count).sum)
      = (chunks.map (fun ch => ch.countP (fun f => decide (f.gridcode = code)))).sum := by
  rw [processCode]
  by_cases h0 : gdf.countP (fun f => decide (f.gridcode = code)) = 0
  · rw [if_pos h0]
    simp only [List.map_nil, List.sum_nil]
    symm
    apply List.sum_eq_zero
    intro x hx
    rw [List.mem_map] at hx
    obtain ⟨ch, hcm, rfl⟩ := hx
    exact hch h0 ch hcm
  · rw [if_neg h0]
    by_cases hcr : ((chunks.filterMap (fun ch => process_chunk ch code)).filter
        (fun r => ¬ r.isEmpty)).isEmpty
    · rw [if_pos hcr]
      simp only [List.map_nil, List.sum_nil]
      rw [← chunkResults_sum chunks code]
      rw [List.isEmpty_iff] at hcr
      rw [hcr]
      rfl
    · rw [if_neg hcr]
      by_cases hf : fail code
      · rw [if_pos hf]
        simp only
        rw [← chunkResults_sum chunks code, List.map_flatten, List.sum_flatten, List.map_map]
        rfl
      · rw [if_neg hf]
        simp only
        rw [dissolve_sum_sum, ← chunkResults_sum chunks code, List.map_flatten,
          List.sum_flatten, List.map_map]
        rfl

/-! ## Structure of the spatial chunks -/

theorem create_spatial_chunks_eq (gdf : List Feature) (k : ℕ) (tb : Rect)
    (hb : totalBounds gdf = some tb) :
    create_spatial_chunks gdf k =
      ((cellList tb (chunksPerSide k)).map
        (fun b => gdf.filter (fun f => geomMeets f.geom b))).filter
        (fun c => ¬ c.isEmpty) := by
  rw [create_spatial_chunks, hb, cellList, List.map_flatten]
  simp only [List.map_map, Function.comp_def]

theorem mem_cellList {tb : Rect} {s : ℕ} {b : Rect} :
    b ∈ cellList tb s ↔ ∃ i < s, ∃ j < s, b = cellBox tb s i j := by
  simp only [cellList, List.mem_flatten, List.mem_map, List.mem_range]
  constructor
  · rintro ⟨L, ⟨i, hi, rfl⟩, hbL⟩
    rcases List.mem_map.mp hbL with ⟨j, hj, rfl⟩
    exact ⟨i, hi, j, List.mem_range.mp hj, rfl⟩
  · rintro ⟨i, hi, j, hj, rfl⟩
    exact ⟨(List.range s).map (fun j => cellBox tb s i j), ⟨i, hi, rfl⟩,
      List.mem_map.mpr ⟨j, List.mem_range.mpr hj, rfl⟩⟩

theorem mem_create_spatial_chunks {gdf : List Feature} {k : ℕ} {ch : List Feature}
    (tb : Rect) (hb : totalBounds gdf = some tb)
    (h : ch ∈ create_spatial_chunks gdf k) :
    ∃ i < chunksPerSide k, ∃ j < chunksPerSide k,
      ch = gdf.filter (fun f => geomMeets f.geom (cellBox tb (chunksPerSide k) i j)) ∧
        ch ≠ [] := by
  rw [create_spatial_chunks_eq gdf k tb hb] at h
  rw [List.mem_filter] at h
  obtain ⟨hmem, hne⟩ := h
  rcases List.mem_map.mp hmem with ⟨b, hb', rfl⟩
  rcases mem_cellList.mp hb' with ⟨i, hi, j, hj, rfl⟩
  refine ⟨i, hi, j, hj, rfl, ?_⟩
  intro hnil
  rw [hnil] at hne
  simp at hne

theorem filter_mem_create_spatial_chunks {gdf : List Feature} {k : ℕ}
    (tb : Rect) (hb : totalBounds gdf = some tb) {i j : ℕ}
    (hi : i < chunksPerSide k) (hj : j < chunksPerSide k)
    (hne : gdf.filter (fun f => geomMeets f.geom (cellBox tb (chunksPerSide k) i j)) ≠ []) :
    gdf.filter (fun f => geomMeets f.geom (cellBox tb (chunksPerSide k) i j)) ∈
      create_spatial_chunks gdf k := by
  rw [create_spatial_chunks_eq gdf k tb hb]
  rw [List.mem_filter]
  constructor
  · exact List.mem_map.mpr ⟨cellBox tb (chunksPerSide k) i j,
      mem_cellList.mpr ⟨i, hi, j, hj, rfl⟩, rfl⟩
  · simpa [List.isEmpty_iff] using hne

theorem chunk_countP_le (gdf : List Feature) (k : ℕ) (p : Feature → Bool) :
    ∀ ch ∈ create_spatial_chunks gdf k, ch.countP p ≤ gdf.countP p := by
  intro ch hch
  cases hb : totalBounds gdf with
  | none =>
    rw [create_spatial_chunks, hb] at hch
    exact absurd hch (List.not_mem_nil _)
  | some tb =>
    obtain ⟨i, _, j, _, rfl, _⟩ := mem_create_spatial_chunks tb hb hch
    rw [List.countP_filter, List.countP_eq_length_filter, List.countP_eq_length_filter]
    exact (List.monotone_filter_right gdf (fun a h => by
      rw [Bool.and_eq_true] at h
      exact h.1)).length_le

/-- `countP` as a sum of indicator values. -/
theorem countP_as_sum {α : Type} (l : List α) (p : α → Bool) :
    l.countP p = (l.map (fun x => if p x then 1 else 0)).sum := by
  induction l with
  | nil => rfl
  | cons a t ih =>
    rw [List.countP_cons, List.map_cons, List.sum_cons, ih]
    omega

/-- Exchange of a double counting sum. -/
theorem sum_countP_swap {α β : Type} (cs : List β) (l : List α) (p : β → α → Bool) :
    (cs.map (fun c => l.countP (p c))).sum = (l.map (fun f => cs.countP (fun c => p c f))).sum := by
  simp only [countP_as_sum, list_sum_map_eq_sum_get]
  exact Finset.sum_comm

/-- The per-chunk match counts summed over all chunks count every
(feature, cell) incidence of the matching features. -/
theorem chunks_sum_eq_cells_sum (gdf : List Feature) (k : ℕ) (tb : Rect)
    (hb : totalBounds gdf = some tb) (code : ℤ) :
    ((create_spatial_chunks gdf k).map
        (fun ch => ch.countP (fun f => decide (f.gridcode = code)))).sum =
      (gdf.map (fun f => if f.gridcode = code then
        (cellList tb (chunksPerSide k)).countP (fun b => geomMeets f.geom b) else 0)).sum := by
  rw [create_spatial_chunks_eq gdf k tb hb]
  have hdrop : ∀ (L : List (List Feature)),
      ((L.filter (fun c => ¬ c.isEmpty)).map
        (fun ch => ch.countP (fun f => decide (f.gridcode = code)))).sum =
      (L.map (fun ch => ch.countP (fun f => decide (f.gridcode = code)))).sum := by
    intro L
    induction L with
    | nil => rfl
    | cons c t ih =>
      rw [List.filter_cons]
      by_cases hc : c.isEmpty
      · rw [if_neg (by simpa using hc)]
        rw [List.map_cons, List.sum_cons, ih, List.isEmpty_iff.mp hc]
        simp
      · rw [if_pos (by simpa using hc)]
        rw [List.map_cons, List.map_cons, List.sum_cons, List.sum_cons, ih]
  rw [hdrop, List.map_map]
  have hcomp : ((fun ch : List Feature => ch.countP (fun f => decide (f.gridcode = code))) ∘
      fun b => gdf.filter (fun f => geomMeets f.geom b)) =
      fun b => gdf.countP (fun f => decide (f.gridcode = code) && geomMeets f.geom b) := by
    funext b
    exact List.countP_filter ..
  rw [hcomp]
  rw [sum_countP_swap (cellList tb (chunksPerSide k)) gdf
    (fun b f => decide (f.gridcode = code) && geomMeets f.geom b)]
  congr 1
  apply List.map_congr_left
  intro f _
  by_cases hcode : f.gridcode = code
  · rw [if_pos hcode]
    apply List.countP_congr
    intro b _
    simp [hcode]
  · rw [if_neg hcode]
    rw [List.countP_eq_zero.mpr]
    intro b _
    simp [hcode]

/-! ## Gridcode propagation through the pipeline -/

theorem dissolve_count_gridcode {l : List Feature} {code : ℤ}
    (hl : ∀ f ∈ l, f.gridcode = code) :
    ∀ row ∈ dissolve_count l, row.gridcode = code := by
  intro row hrow
  rw [dissolve_count] at hrow
  rcases List.mem_map.mp hrow with ⟨r, _, rfl⟩
  show (l.get r).gridcode = code
  exact hl (l.get r) (l.get_mem ..)

theorem dissolve_sum_gridcode {m : List MergedRow} {code : ℤ}
    (hm : ∀ row ∈ m, row.gridcode = code) :
    ∀ row ∈ dissolve_sum m, row.gridcode = code := by
  intro row hrow
  rw [dissolve_sum] at hrow
  rcases List.mem_map.mp hrow with ⟨r, _, rfl⟩
  show (m.get r).gridcode = code
  exact hm (m.get r) (m.get_mem ..)

theorem process_chunk_gridcode {ch : List Feature} {code : ℤ} {rows : List MergedRow}
    (h : process_chunk ch code = some rows) :
    ∀ row ∈ rows, row.gridcode = code := by
  obtain ⟨hrows, -⟩ := process_chunk_some_facts h
  subst hrows
  apply dissolve_count_gridcode
  intro f hf
  rw [List.mem_filter] at hf
  exact of_decide_eq_true hf.2

theorem processCode_rows_gridcode (gdf : List Feature) (chunks : List (List Feature))
    (fail : ℤ → Bool) (code : ℤ) :
    ∀ row ∈ (processCode gdf chunks fail code).rows, row.gridcode = code := by
  rw [processCode]
  have hflat : ∀ row ∈ ((chunks.filterMap (fun ch => process_chunk ch code)).filter
      (fun r => ¬ r.isEmpty)).flatten, row.gridcode = code := by
    intro row hrow
    rcases List.mem_flatten.mp hrow with ⟨rows, hmem, hr⟩
    rw [List.mem_filter] at hmem
    rcases List.mem_filterMap.mp hmem.1 with ⟨ch, _, hpc⟩
    exact process_chunk_gridcode hpc row hr
  by_cases h0 : gdf.countP (fun f => decide (f.gridcode = code)) = 0
  · rw [if_pos h0]
    intro row hrow
    exact absurd hrow (List.not_mem_nil _)
  · rw [if_neg h0]
    by_cases hcr : ((chunks.filterMap (fun ch => process_chunk ch code)).filter
        (fun r => ¬ r.isEmpty)).isEmpty
    · rw [if_pos hcr]
      intro row hrow
      exact absurd hrow (List.not_mem_nil _)
    · rw [if_neg hcr]
      by_cases hf : fail code
      · rw [if_pos hf]
        exact hflat
      · rw [if_neg hf]
        exact dissolve_sum_gridcode hflat

/-- Splitting the written rows of a run by gridcode recovers the two
per-code outputs. -/
theorem mergeGridRun_rows_split (gdf : List Feature) (k : ℕ) (fail : ℤ → Bool)
    (keys : List String) :
    ((mergeGridRun gdf k fail keys).file.rows.filter
        (fun r => decide (r.gridcode = 12))) =
      (processCode gdf (create_spatial_chunks gdf k) fail 12).rows ∧
    ((mergeGridRun gdf k fail keys).file.rows.filter
        (fun r => decide (r.gridcode = 60))) =
      (processCode gdf (create_spatial_chunks gdf k) fail 60).rows := by
  have h12 := processCode_rows_gridcode gdf (create_spatial_chunks gdf k) fail 12
  have h60 := processCode_rows_gridcode gdf (create_spatial_chunks gdf k) fail 60
  constructor
  · show ((processCode gdf (create_spatial_chunks gdf k) fail 12).rows ++
      (processCode gdf (create_spatial_chunks gdf k) fail 60).rows).filter _ = _
    rw [List.filter_append]
    rw [List.filter_eq_self.mpr (fun row hrow => by simp [h12 row hrow])]
    rw [List.filter_eq_nil.mpr (fun row hrow => by simp [h60 row hrow]), List.append_nil]
  · show ((processCode gdf (create_spatial_chunks gdf k) fail 12).rows ++
      (processCode gdf (create_spatial_chunks gdf k) fail 60).rows).filter _ = _
    rw [List.filter_append]
    rw [List.filter_eq_nil.mpr (fun row hrow => by simp [h12 row hrow])]
    rw [List.filter_eq_self.mpr (fun row hrow => by simp [h60 row hrow]), List.nil_append]

/-! ## Geometric cover lemmas -/

theorem mem_allRects {gdf : List Feature} {r : Rect} :
    r ∈ allRects gdf ↔ ∃ f ∈ gdf, r ∈ f.geom := by
  induction gdf with
  | nil => simp [allRects]
  | cons f t ih =>
    show r ∈ f.geom ∪ allRects t ↔ _
    rw [Finset.mem_union, ih]
    simp

theorem totalBounds_bounds {gdf : List Feature} {tb : Rect} (hb : totalBounds gdf = some tb)
    {r : Rect} (hr : r ∈ allRects gdf) :
    tb.x1 ≤ r.x1 ∧ r.x2 ≤ tb.x2 ∧ tb.y1 ≤ r.y1 ∧ r.y2 ≤ tb.y2 := by
  rw [totalBounds] at hb
  by_cases h : (allRects gdf).Nonempty
  · rw [dif_pos h] at hb
    have htb := Option.some.inj hb
    subst htb
    refine ⟨?_, ?_, ?_, ?_⟩
    · exact Finset.min'_le _ _ (Finset.mem_image_of_mem _ hr)
    · exact Finset.le_max' _ _ (Finset.mem_image_of_mem _ hr)
    · exact Finset.min'_le _ _ (Finset.mem_image_of_mem _ hr)
    · exact Finset.le_max' _ _ (Finset.mem_image_of_mem _ hr)
  · rw [dif_neg h] at hb
    exact absurd hb (Option.noConfusion)

/-- One-dimensional cover: a coordinate between the bounds lies in one of the
`s` equal intervals of the grid. -/
theorem oneD_cover {A B v : ℚ} (hA : A ≤ v) (hB : v ≤ B) {s : ℕ} (hs : 1 ≤ s) :
    ∃ i < s, A + (i : ℚ) * ((B - A) / (s : ℚ)) ≤ v ∧
      v ≤ A + (i : ℚ) * ((B - A) / (s : ℚ)) + (B - A) / (s : ℚ) := by
  have hs0 : (0 : ℚ) < (s : ℚ) := by exact_mod_cast hs
  set w : ℚ := (B - A) / (s : ℚ) with hw
  have hsw : (s : ℚ) * w = B - A := by
    rw [hw]
    field_simp
  by_cases hwpos : 0 < w
  · have hva : 0 ≤ v - A := by linarith
    set iq : ℤ := ⌊(v - A) / w⌋ with hiq
    have hiq0 : 0 ≤ iq := Int.floor_nonneg.mpr (by positivity)
    refine ⟨min iq.toNat (s - 1), by omega, ?_, ?_⟩
    · have h1 : ((min iq.toNat (s - 1) : ℕ) : ℤ) ≤ iq := by
        have := Int.toNat_of_nonneg hiq0
        omega
      have hile : ((min iq.toNat (s - 1) : ℕ) : ℚ) ≤ (v - A) / w := by
        calc ((min iq.toNat (s - 1) : ℕ) : ℚ) ≤ (iq : ℚ) := by exact_mod_cast h1
          _ ≤ (v - A) / w := Int.floor_le _
      have := (le_div_iff hwpos).mp hile
      linarith
    · by_cases hcase : iq.toNat ≤ s - 1
      · have hieq : min iq.toNat (s - 1) = iq.toNat := by omega
        have hlt : (v - A) / w < iq + 1 := Int.lt_floor_add_one _
        have h2 : v - A < ((iq : ℚ) + 1) * w := by
          have := (div_lt_iff hwpos).mp hlt
          push_cast at this ⊢
          linarith
        have h3 : ((min iq.toNat (s - 1) : ℕ) : ℚ) = (iq : ℚ) := by
          rw [hieq]
          exact_mod_cast congrArg (fun z : ℤ => (z : ℚ)) (Int.toNat_of_nonneg hiq0)
        rw [h3]
        linarith
      · have hieq : min iq.toNat (s - 1) = s - 1 := by omega
        have h4 : ((min iq.toNat (s - 1) : ℕ) : ℚ) + 1 = (s : ℚ) := by
          rw [hieq]
          push_cast [Nat.cast_sub hs]
          ring
        have h5 : v - A ≤ (s : ℚ) * w := by
          rw [hsw]
          linarith

        nlinarith [h4, h5]
  · have hw0 : 0 ≤ w := by
      rw [hw]
      apply div_nonneg (by linarith) (le_of_lt hs0)
    have hweq : w = 0 := le_antisymm (not_lt.mp hwpos) hw0
    have hBA : B - A = 0 := by
      rw [← hsw, hweq]
      ring
    refine ⟨0, by omega, ?_, ?_⟩
    · rw [hweq]
      push_cast
      linarith
    · rw [hweq]
      push_cast
      linarith

/-- The cell boxes written out with the field operations of `ℚ`. -/
theorem cellBox_coords (tb : Rect) (s i j : ℕ) :
    cellBox tb s i j =
      { x1 := tb.x1 + (i : ℚ) * ((tb.x2 - tb.x1) / (s : ℚ)),
        y1 := tb.y1 + (j : ℚ) * ((tb.y2 - tb.y1) / (s : ℚ)),
        x2 := tb.x1 + (i : ℚ) * ((tb.x2 - tb.x1) / (s : ℚ)) + (tb.x2 - tb.x1) / (s : ℚ),
        y2 := tb.y1 + (j : ℚ) * ((tb.y2 - tb.y1) / (s : ℚ)) + (tb.y2 - tb.y1) / (s : ℚ) } := by
  simp only [cellBox, qadd_eq, qmulN_eq, qdivN_eq, qsub_eq]

/-- Every point of the bounding box lies in at least one grid cell. -/
theorem cells_cover (tb : Rect) {s : ℕ} (hs : 1 ≤ s) {p : Pt}
    (hx1 : tb.x1 ≤ p.1) (hx2 : p.1 ≤ tb.x2) (hy1 : tb.y1 ≤ p.2) (hy2 : p.2 ≤ tb.y2) :
    ∃ i < s, ∃ j < s, (cellBox tb s i j).containsPt p := by
  obtain ⟨i, his, hi1, hi2⟩ := oneD_cover hx1 hx2 hs
  obtain ⟨j, hjs, hj1, hj2⟩ := oneD_cover hy1 hy2 hs
  refine ⟨i, his, j, hjs, ?_⟩
  rw [cellBox_coords]
  exact ⟨hi1, hi2, hj1, hj2⟩

theorem corners_containsPt {r : Rect} (hwf : r.WFR) {p : Pt} (hp : p ∈ r.corners) :
    r.containsPt p := by
  obtain ⟨hx, hy⟩ := hwf
  simp only [Rect.corners, Finset.mem_insert, Finset.mem_singleton] at hp
  rcases hp with rfl | rfl | rfl | rfl
  · exact ⟨le_rfl, hx, le_rfl, hy⟩
  · exact ⟨le_rfl, hx, hy, le_rfl⟩
  · exact ⟨hx, le_rfl, le_rfl, hy⟩
  · exact ⟨hx, le_rfl, hy, le_rfl⟩

theorem mem_verts {g : Geom} {p : Pt} : p ∈ verts g ↔ ∃ r ∈ g, p ∈ r.corners := by
  simp [verts]

theorem meets_of_common_point {r b : Rect} {p : Pt} (hr : r.containsPt p)
    (hb : b.containsPt p) : r.meets b = true := by
  obtain ⟨h1, h2, h3, h4⟩ := hr
  obtain ⟨h5, h6, h7, h8⟩ := hb
  simp only [Rect.meets, decide_eq_true_eq]
  exact ⟨le_trans h1 h6, le_trans h5 h2, le_trans h3 h8, le_trans h7 h4⟩

theorem geomMeets_of_vertex {g : Geom} (hwfr : ∀ r ∈ g, r.WFR) {p : Pt}
    (hp : p ∈ verts g) {b : Rect} (hbp : b.containsPt p) :
    geomMeets g b = true := by
  obtain ⟨r, hrg, hpc⟩ := mem_verts.mp hp
  simp only [geomMeets, decide_eq_true_eq]
  exact ⟨r, hrg, meets_of_common_point (corners_containsPt (hwfr r hrg) hpc) hbp⟩

theorem vertex_in_bounds {gdf : List Feature} {tb : Rect}
    (hb : totalBounds gdf = some tb) (hwf : FrameWF gdf)
    {f : Feature} (hf : f ∈ gdf) {p : Pt} (hp : p ∈ verts f.geom) :
    tb.x1 ≤ p.1 ∧ p.1 ≤ tb.x2 ∧ tb.y1 ≤ p.2 ∧ p.2 ≤ tb.y2 := by
  obtain ⟨r, hrg, hpc⟩ := mem_verts.mp hp
  have hr : r ∈ allRects gdf := mem_allRects.mpr ⟨f, hf, hrg⟩
  obtain ⟨hb1, hb2, hb3, hb4⟩ := totalBounds_bounds hb hr
  obtain ⟨h1, h2, h3, h4⟩ := corners_containsPt ((hwf f hf).1 r hrg) hpc
  exact ⟨le_trans hb1 h1, le_trans h2 hb2, le_trans hb3 h3, le_trans h4 hb4⟩

theorem chunksPerSide_pos {k : ℕ} (hk : 1 ≤ k) : 1 ≤ chunksPerSide k := by
  rw [chunksPerSide_eq]
  by_cases h : Nat.sqrt k * Nat.sqrt k = k
  · rw [if_pos h]
    have := Nat.sqrt_pos.mpr (by omega : 0 < k)
    omega
  · rw [if_neg h]
    omega

theorem verts_nonempty {g : Geom} (h : g.Nonempty) : (verts g).Nonempty := by
  obtain ⟨r, hr⟩ := h
  exact ⟨(r.x1, r.y1), mem_verts.mpr ⟨r, hr, by simp [Rect.corners]⟩⟩

theorem queen_self {g : Geom} (h : g.Nonempty) : queen g g = true := by
  obtain ⟨p, hp⟩ := verts_nonempty h
  simp only [queen, decide_eq_true_eq]
  exact ⟨p, Finset.mem_inter.mpr ⟨hp, hp⟩⟩

/-- Two Queen-adjacent features of the frame land together in at least one
chunk: the shared vertex lies in some grid cell and both geometries intersect
that cell's box. -/
theorem common_chunk_of_queen {gdf : List Feature} {k : ℕ} (hwf : FrameWF gdf)
    {tb : Rect} (hb : totalBounds gdf = some tb) (hk : 1 ≤ k)
    {a c : Feature} (ha : a ∈ gdf) (hc : c ∈ gdf) (hq : queen a.geom c.geom = true) :
    ∃ ch ∈ create_spatial_chunks gdf k, a ∈ ch ∧ c ∈ ch := by
  have hs := chunksPerSide_pos hk
  rw [queen, decide_eq_true_eq] at hq
  obtain ⟨p, hp⟩ := hq
  rw [Finset.mem_inter] at hp
  obtain ⟨hpa, hpc⟩ := hp
  obtain ⟨h1, h2, h3, h4⟩ := vertex_in_bounds hb hwf ha hpa
  obtain ⟨i, hi, j, hj, hcp⟩ := cells_cover tb hs h1 h2 h3 h4
  have hma : geomMeets a.geom (cellBox tb (chunksPerSide k) i j) = true :=
    geomMeets_of_vertex (hwf a ha).1 hpa hcp
  have hmc : geomMeets c.geom (cellBox tb (chunksPerSide k) i j) = true :=
    geomMeets_of_vertex (hwf c hc).1 hpc hcp
  have hain : a ∈ gdf.filter
      (fun f => geomMeets f.geom (cellBox tb (chunksPerSide k) i j)) :=
    List.mem_filter.mpr ⟨ha, hma⟩
  have hcin : c ∈ gdf.filter
      (fun f => geomMeets f.geom (cellBox tb (chunksPerSide k) i j)) :=
    List.mem_filter.mpr ⟨hc, hmc⟩
  have hne : gdf.filter
      (fun f => geomMeets f.geom (cellBox tb (chunksPerSide k) i j)) ≠ [] := by
    intro hnil
    rw [hnil] at hain
    exact absurd hain (List.not_mem_nil _)
  exact ⟨_, filter_mem_create_spatial_chunks tb hb hi hj hne, hain, hcin⟩

/-- Every feature of a well-formed frame appears in at least one chunk. -/
theorem feature_in_some_chunk {gdf : List Feature} {k : ℕ} (hwf : FrameWF gdf)
    {tb : Rect} (hb : totalBounds gdf = some tb) (hk : 1 ≤ k)
    {a : Feature} (ha : a ∈ gdf) :
    ∃ ch ∈ create_spatial_chunks gdf k, a ∈ ch := by
  obtain ⟨ch, hch, hain, -⟩ := common_chunk_of_queen hwf hb hk ha ha
    (queen_self (hwf a ha).2)
  exact ⟨ch, hch, hain⟩

/-! ## Element-level connectivity and the concatenated chunk results -/

theorem elemRTG_mono {α : Type} (adj : α → α → Bool) {l l' : List α}
    (hsub : ∀ x ∈ l, x ∈ l') {a b : α} (h : elemRTG adj l a b) : elemRTG adj l' a b := by
  induction h with
  | refl => exact Relation.ReflTransGen.refl
  | tail _ hstep ih =>
    exact ih.tail ⟨hsub _ hstep.1, hsub _ hstep.2.1, hstep.2.2⟩

theorem elemRTG_trans {α : Type} {adj : α → α → Bool} {l : List α} {a b c : α}
    (h1 : elemRTG adj l a b) (h2 : elemRTG adj l b c) : elemRTG adj l a c :=
  Relation.ReflTransGen.trans h1 h2

/-- The index-level reachable set corresponds exactly to element-level
connectivity when every listed element is self-adjacent. -/
theorem mem_reach_iff_elem {α : Type} [DecidableEq α] (adj : α → α → Bool) (l : List α)
    (hself : ∀ x ∈ l, adj x x = true) {i j : Fin l.length} :
    j ∈ reach adj l i ↔ elemRTG adj l (l.get i) (l.get j) := by
  constructor
  · intro h
    rw [mem_reach_iff] at h
    induction h with
    | refl => exact Relation.ReflTransGen.refl
    | tail _ hstep ih =>
      exact ih.tail ⟨List.get_mem .., List.get_mem .., hstep⟩
  · intro h
    have key : ∀ y, elemRTG adj l (l.get i) y →
        ∃ t : Fin l.length, l.get t = y ∧ t ∈ reach adj l i := by
      intro y hy
      induction hy with
      | refl => exact ⟨i, rfl, mem_reach_self adj l i⟩
      | tail _ hstep ih =>
        obtain ⟨t, hteq, htm⟩ := ih
        obtain ⟨ty, hty⟩ := List.mem_iff_get.mp hstep.2.1
        refine ⟨ty, hty, ?_⟩
        have hadj : adj (l.get t) (l.get ty) = true := by
          rw [hteq, hty]
          exact hstep.2.2
        have hst := (mem_cstep adj l).mpr (Or.inr ⟨t, htm, hadj⟩)
        rwa [reach_fixed adj l i] at hst
    obtain ⟨t, hteq, htm⟩ := key (l.get j) h
    have hadj : adj (l.get t) (l.get j) = true := by
      rw [hteq]
      exact hself _ (List.get_mem ..)
    have hst := (mem_cstep adj l).mpr (Or.inr ⟨t, htm, hadj⟩)
    rwa [reach_fixed adj l i] at hst

theorem codeList_def (gdf : List Feature) (code : ℤ) :
    codeList gdf code = gdf.filter (fun f => decide (f.gridcode = code)) := rfl

theorem mem_codeList {gdf : List Feature} {code : ℤ} {f : Feature} :
    f ∈ codeList gdf code ↔ f ∈ gdf ∧ f.gridcode = code := by
  rw [codeList_def, List.mem_filter]
  simp

/-- Every row of a chunk is a row of the frame. -/
theorem chunk_sub {gdf : List Feature} {k : ℕ} {ch : List Feature}
    (hch : ch ∈ create_spatial_chunks gdf k) : ∀ x ∈ ch, x ∈ gdf := by
  cases hb : totalBounds gdf with
  | none =>
    rw [create_spatial_chunks, hb] at hch
    exact absurd hch (List.not_mem_nil _)
  | some tb =>
    obtain ⟨i, _, j, _, rfl, _⟩ := mem_create_spatial_chunks tb hb hch
    intro x hx
    exact (List.mem_filter.mp hx).1

theorem codeList_chunk_sub {gdf : List Feature} {k : ℕ} {ch : List Feature} {code : ℤ}
    (hch : ch ∈ create_spatial_chunks gdf k) :
    ∀ x ∈ codeList ch code, x ∈ codeList gdf code := by
  intro x hx
  rw [mem_codeList] at hx ⊢
  exact ⟨chunk_sub hch x hx.1, hx.2⟩

theorem codeList_self_adj {l : List Feature} {gdf : List Feature}
    (hwf : FrameWF gdf) (hsub : ∀ x ∈ l, x ∈ gdf) :
    ∀ x ∈ l, queenF x x = true := by
  intro x hx
  exact queen_self (hwf x (hsub x hx)).2

/-- The shape of the rows of the concatenated chunk results. -/
theorem mem_mergedDfOf {gdf : List Feature} {k : ℕ} {code : ℤ} {row : MergedRow} :
    row ∈ mergedDfOf gdf k code ↔
      ∃ ch ∈ create_spatial_chunks gdf k, ∃ r ∈ compReps queenF (codeList ch code),
        row = rowFor (codeList ch code) r := by
  constructor
  · intro h
    rw [mergedDfOf] at h
    rcases List.mem_flatten.mp h with ⟨rows, hmem, hr⟩
    rw [List.mem_filter] at hmem
    rcases List.mem_filterMap.mp hmem.1 with ⟨ch, hch, hpc⟩
    obtain ⟨hrows, -⟩ := process_chunk_some_facts hpc
    subst hrows
    rcases List.mem_map.mp hr with ⟨r, hrreps, rfl⟩
    exact ⟨ch, hch, r, hrreps, rfl⟩
  · rintro ⟨ch, hch, r, hrreps, rfl⟩
    rw [mergedDfOf]
    apply List.mem_flatten.mpr
    have hne : codeList ch code ≠ [] := by
      intro hnil
      have hlt := r.isLt
      have hzero : (codeList ch code).length = 0 := by
        rw [hnil]
        rfl
      omega
    refine ⟨dissolve_count (codeList ch code), ?_,
      List.mem_map.mpr ⟨r, hrreps, rfl⟩⟩
    rw [List.mem_filter]
    constructor
    · apply List.mem_filterMap.mpr
      refine ⟨ch, hch, ?_⟩
      rw [process_chunk, if_neg (by rw [← codeList_def]; simpa [List.isEmpty_iff] using hne)]
      rw [← codeList_def]
    · simpa [List.isEmpty_iff] using dissolve_count_ne_nil hne

theorem verts_mono {g h : Geom} (hsub : g ⊆ h) : verts g ⊆ verts h :=
  Finset.biUnion_subset_biUnion_of_subset_left _ hsub

theorem verts_biUnion {β : Type} [DecidableEq β] (s : Finset β) (g : β → Geom) :
    verts (s.biUnion g) = s.biUnion (fun b => verts (g b)) := by
  rw [verts, Finset.biUnion_biUnion]
  rfl

theorem queen_iff {g h : Geom} : queen g h = true ↔ ((verts g) ∩ (verts h)).Nonempty := by
  simp [queen]

theorem rowFor_geom_subset {l : List Feature} {r : Fin l.length} {t : Fin l.length}
    (ht : t ∈ reach queenF l r) : (l.get t).geom ⊆ (rowFor l r).geom := by
  show (l.get t).geom ⊆ (reach queenF l r).biUnion (fun i => (l.get i).geom)
  exact Finset.subset_biUnion_of_mem (fun i => (l.get i).geom) ht

theorem rowFor_verts (l : List Feature) (r : Fin l.length) :
    verts (rowFor l r).geom =
      (reach queenF l r).biUnion (fun t => verts (l.get t).geom) :=
  verts_biUnion _ _

theorem rowSumFor_geom_subset {m : List MergedRow} {r : Fin m.length} {t : Fin m.length}
    (ht : t ∈ reach queenM m r) : (m.get t).geom ⊆ (rowSumFor m r).geom := by
  show (m.get t).geom ⊆ (reach queenM m r).biUnion (fun i => (m.get i).geom)
  exact Finset.subset_biUnion_of_mem (fun i => (m.get i).geom) ht

theorem rowSumFor_verts (m : List MergedRow) (r : Fin m.length) :
    verts (rowSumFor m r).geom =
      (reach queenM m r).biUnion (fun t => verts (m.get t).geom) :=
  verts_biUnion _ _

/-- Two members of chunk components that produce the same concatenated row
are connected in the global per-code Queen graph. -/
theorem same_row_connected {gdf : List Feature} {k : ℕ} {code : ℤ}
    (hwf : FrameWF gdf)
    {ch ch' : List Feature} (hch : ch ∈ create_spatial_chunks gdf k)
    (hch' : ch' ∈ create_spatial_chunks gdf k)
    {r : Fin (codeList ch code).length} {r' : Fin (codeList ch' code).length}
    (heq : rowFor (codeList ch code) r = rowFor (codeList ch' code) r')
    {t : Fin (codeList ch code).length} (ht : t ∈ reach queenF (codeList ch code) r)
    {t' : Fin (codeList ch' code).length} (ht' : t' ∈ reach queenF (codeList ch' code) r') :
    elemRTG queenF (codeList gdf code)
      ((codeList ch code).get t) ((codeList ch' code).get t') := by
  have hsub : ∀ x ∈ codeList ch code, x ∈ codeList gdf code := codeList_chunk_sub hch
  have hsub' : ∀ x ∈ codeList ch' code, x ∈ codeList gdf code := codeList_chunk_sub hch'
  have hself' : ∀ x ∈ codeList ch' code, queenF x x = true :=
    codeList_self_adj hwf (fun x hx => (mem_codeList.mp (hsub' x hx)).1)
  have hxmem : (codeList ch code).get t ∈ codeList ch code := List.get_mem ..
  have hxg : ((codeList ch code).get t).geom.Nonempty :=
    (hwf _ ((mem_codeList.mp (hsub _ hxmem)).1)).2
  obtain ⟨p, hp⟩ := verts_nonempty hxg
  have hpr : p ∈ verts (rowFor (codeList ch code) r).geom :=
    verts_mono (rowFor_geom_subset ht) hp
  rw [heq, rowFor_verts] at hpr
  rcases Finset.mem_biUnion.mp hpr with ⟨w, hw, hpw⟩
  have hq : queenF ((codeList ch code).get t) ((codeList ch' code).get w) = true :=
    queen_iff.mpr ⟨p, Finset.mem_inter.mpr ⟨hp, hpw⟩⟩
  have hwmem : (codeList ch' code).get w ∈ codeList ch' code := List.get_mem ..
  have step1 : elemRTG queenF (codeList gdf code)
      ((codeList ch code).get t) ((codeList ch' code).get w) :=
    Relation.ReflTransGen.single ⟨hsub _ hxmem, hsub' _ hwmem, hq⟩
  have hclass : t' ∈ reach queenF (codeList ch' code) w := by
    have h1 := reach_eq_of_mem queenF (codeList ch' code) queenF_symm hw
    rw [← h1]
    exact ht'
  have step2 : elemRTG queenF (codeList ch' code)
      ((codeList ch' code).get w) ((codeList ch' code).get t') :=
    (mem_reach_iff_elem queenF (codeList ch' code) hself').mp hclass
  exact elemRTG_trans step1 (elemRTG_mono queenF hsub' step2)

/-- Soundness: members of rows lying in one component of the concatenated
frame are connected in the global per-code Queen graph. -/
theorem sound_members {gdf : List Feature} {k : ℕ} {code : ℤ}
    (hwf : FrameWF gdf)
    {u t : Fin (mergedDfOf gdf k code).length}
    (hreach : t ∈ reach queenM (mergedDfOf gdf k code) u)
    {chu : List Feature} (hchu : chu ∈ create_spatial_chunks gdf k)
    {ru : Fin (codeList chu code).length}
    (hrowu : (mergedDfOf gdf k code).get u = rowFor (codeList chu code) ru)
    {tu : Fin (codeList chu code).length} (htu : tu ∈ reach queenF (codeList chu code) ru) :
    ∀ {cht : List Feature}, cht ∈ create_spatial_chunks gdf k →
      ∀ {rt : Fin (codeList cht code).length},
        (mergedDfOf gdf k code).get t = rowFor (codeList cht code) rt →
        ∀ {tt : Fin (codeList cht code).length}, tt ∈ reach queenF (codeList cht code) rt →
        elemRTG queenF (codeList gdf code)
          ((codeList chu code).get tu) ((codeList cht code).get tt) := by
  rw [mem_reach_iff] at hreach
  induction hreach with
  | refl =>
    intro cht hcht rt hrowt tt htt
    exact same_row_connected hwf hchu hcht (hrowu.symm.trans hrowt) htu htt
  | @tail b t2 _hprev hstep ih =>
    intro cht hcht rt hrowt tt htt
    obtain ⟨ch2, hch2, r2, _hr2, hrow2⟩ :=
      mem_mergedDfOf.mp (List.get_mem (mergedDfOf gdf k code) b.1 b.2)
    have hq : queen ((mergedDfOf gdf k code).get b).geom
        ((mergedDfOf gdf k code).get t2).geom = true := hstep
    obtain ⟨p, hp⟩ := queen_iff.mp hq
    rw [Finset.mem_inter] at hp
    obtain ⟨hpb, hpt⟩ := hp
    rw [hrow2, rowFor_verts] at hpb
    rw [hrowt, rowFor_verts] at hpt
    rcases Finset.mem_biUnion.mp hpb with ⟨u2, hu2, hpu2⟩
    rcases Finset.mem_biUnion.mp hpt with ⟨ut, hut, hput⟩
    have hq2 : queenF ((codeList ch2 code).get u2) ((codeList cht code).get ut) = true :=
      queen_iff.mpr ⟨p, Finset.mem_inter.mpr ⟨hpu2, hput⟩⟩
    have part1 : elemRTG queenF (codeList gdf code)
        ((codeList chu code).get tu) ((codeList ch2 code).get u2) :=
      ih hch2 hrow2 hu2
    have hsub2 : ∀ x ∈ codeList ch2 code, x ∈ codeList gdf code := codeList_chunk_sub hch2
    have hsubt : ∀ x ∈ codeList cht code, x ∈ codeList gdf code := codeList_chunk_sub hcht
    have part2 : elemRTG queenF (codeList gdf code)
        ((codeList ch2 code).get u2) ((codeList cht code).get ut) :=
      Relation.ReflTransGen.single
        ⟨hsub2 _ (List.get_mem ..), hsubt _ (List.get_mem ..), hq2⟩
    have hselft : ∀ x ∈ codeList cht code, queenF x x = true :=
      codeList_self_adj hwf (fun x hx => (mem_codeList.mp (hsubt x hx)).1)
    have hclass : tt ∈ reach queenF (codeList cht code) ut := by
      have h1 := reach_eq_of_mem queenF (codeList cht code) queenF_symm hut
      rw [← h1]
      exact htt
    have part3 : elemRTG queenF (codeList gdf code)
        ((codeList cht code).get ut) ((codeList cht code).get tt) :=
      elemRTG_mono queenF hsubt
        ((mem_reach_iff_elem queenF (codeList cht code) hselft).mp hclass)
    exact elemRTG_trans part1 (elemRTG_trans part2 part3)

/-- Completeness: everything globally connected to a member of a row is
itself a member of a row in the same component of the concatenated frame. -/
theorem complete_members {gdf : List Feature} {k : ℕ} {code : ℤ}
    (hwf : FrameWF gdf) {tb : Rect} (hb : totalBounds gdf = some tb) (hk : 1 ≤ k)
    {u : Fin (mergedDfOf gdf k code).length}
    {chu : List Feature} (hchu : chu ∈ create_spatial_chunks gdf k)
    {ru : Fin (codeList chu code).length}
    (hrowu : (mergedDfOf gdf k code).get u = rowFor (codeList chu code) ru)
    {tu : Fin (codeList chu code).length} (htu : tu ∈ reach queenF (codeList chu code) ru)
    {y : Feature}
    (hy : elemRTG queenF (codeList gdf code) ((codeList chu code).get tu) y) :
    ∃ t ∈ reach queenM (mergedDfOf gdf k code) u,
      ∃ cht ∈ create_spatial_chunks gdf k, ∃ rt : Fin (codeList cht code).length,
        (mergedDfOf gdf k code).get t = rowFor (codeList cht code) rt ∧
        ∃ tt ∈ reach queenF (codeList cht code) rt, (codeList cht code).get tt = y := by
  induction hy with
  | refl =>
    exact ⟨u, mem_reach_self .., chu, hchu, ru, hrowu, tu, htu, rfl⟩
  | @tail b c _hprev hstep ih =>
    obtain ⟨t, htm, cht, hcht, rt, hrowt, tt, httm, htteq⟩ := ih
    obtain ⟨hbmem, hcmem, hbc⟩ := hstep
    obtain ⟨hbgdf, hbcode⟩ := mem_codeList.mp hbmem
    obtain ⟨hcgdf, hccode⟩ := mem_codeList.mp hcmem
    obtain ⟨chs, hchs, hbch, hcch⟩ := common_chunk_of_queen hwf hb hk hbgdf hcgdf hbc
    have hbl : b ∈ codeList chs code := mem_codeList.mpr ⟨hbch, hbcode⟩
    have hcl : c ∈ codeList chs code := mem_codeList.mpr ⟨hcch, hccode⟩
    obtain ⟨pb, hpb⟩ := List.mem_iff_get.mp hbl
    obtain ⟨qc, hqc⟩ := List.mem_iff_get.mp hcl
    obtain ⟨rs, hrs, _hre, hpm⟩ := exists_rep queenF (codeList chs code) queenF_symm pb
    have hadjpq : queenF ((codeList chs code).get pb) ((codeList chs code).get qc) = true := by
      rw [hpb, hqc]
      exact hbc
    have hq_in : qc ∈ reach queenF (codeList chs code) rs := by
      have hstepq := (mem_cstep queenF (codeList chs code)).mpr (Or.inr ⟨pb, hpm, hadjpq⟩)
      rwa [reach_fixed queenF (codeList chs code) rs] at hstepq
    have hrowstar : rowFor (codeList chs code) rs ∈ mergedDfOf gdf k code :=
      mem_mergedDfOf.mpr ⟨chs, hchs, rs, hrs, rfl⟩
    obtain ⟨tstar, htstar⟩ := List.mem_iff_get.mp hrowstar
    have hbne : b.geom.Nonempty := (hwf b hbgdf).2
    obtain ⟨p0, hp0⟩ := verts_nonempty hbne
    have hvt : p0 ∈ verts ((mergedDfOf gdf k code).get t).geom := by
      rw [hrowt]
      apply verts_mono (rowFor_geom_subset httm)
      rw [htteq]
      exact hp0
    have hvstar : p0 ∈ verts ((mergedDfOf gdf k code).get tstar).geom := by
      rw [htstar]
      apply verts_mono (rowFor_geom_subset hpm)
      rw [hpb]
      exact hp0
    have hadjrow : queenM ((mergedDfOf gdf k code).get t)
        ((mergedDfOf gdf k code).get tstar) = true :=
      queen_iff.mpr ⟨p0, Finset.mem_inter.mpr ⟨hvt, hvstar⟩⟩
    have htstar_in : tstar ∈ reach queenM (mergedDfOf gdf k code) u := by
      have hstepr := (mem_cstep queenM (mergedDfOf gdf k code)).mpr
        (Or.inr ⟨t, htm, hadjrow⟩)
      rwa [reach_fixed queenM (mergedDfOf gdf k code) u] at hstepr
    exact ⟨tstar, htstar_in, chs, hchs, rs, htstar, qc, hq_in, hqc⟩

theorem mem_classGeomIdx {l : List Feature} {i : Fin l.length} {R : Rect} :
    R ∈ classGeomIdx l i ↔ ∃ t ∈ reach queenF l i, R ∈ (l.get t).geom :=
  Finset.mem_biUnion

theorem mem_rowSumFor_geom {m : List MergedRow} {u : Fin m.length} {R : Rect} :
    R ∈ (rowSumFor m u).geom ↔ ∃ t ∈ reach queenM m u, R ∈ (m.get t).geom :=
  Finset.mem_biUnion

/-- The geometry of a final component of the concatenated frame is exactly
the geometry of the corresponding component of the global per-code Queen
graph. -/
theorem rowSum_geom_eq_classGeom {gdf : List Feature} {k : ℕ} {code : ℤ}
    (hwf : FrameWF gdf) {tb : Rect} (hb : totalBounds gdf = some tb) (hk : 1 ≤ k)
    {u t : Fin (mergedDfOf gdf k code).length}
    (ht : t ∈ reach queenM (mergedDfOf gdf k code) u)
    {cht : List Feature} (hcht : cht ∈ create_spatial_chunks gdf k)
    {rt : Fin (codeList cht code).length}
    (hrowt : (mergedDfOf gdf k code).get t = rowFor (codeList cht code) rt)
    {tt : Fin (codeList cht code).length} (htt : tt ∈ reach queenF (codeList cht code) rt)
    {ix : Fin (codeList gdf code).length}
    (hix : (codeList gdf code).get ix = (codeList cht code).get tt) :
    (rowSumFor (mergedDfOf gdf k code) u).geom = classGeomIdx (codeList gdf code) ix := by
  have hself : ∀ x ∈ codeList gdf code, queenF x x = true :=
    codeList_self_adj hwf (fun x hx => (mem_codeList.mp hx).1)
  apply Finset.Subset.antisymm
  · intro R hR
    rcases mem_rowSumFor_geom.mp hR with ⟨t2, ht2, hRt2⟩
    obtain ⟨ch2, hch2, r2, _hr2, hrow2⟩ :=
      mem_mergedDfOf.mp (List.get_mem (mergedDfOf gdf k code) t2.1 t2.2)
    rw [hrow2] at hRt2
    rcases Finset.mem_biUnion.mp hRt2 with ⟨t3, ht3, hRt3⟩
    have ht2' : t2 ∈ reach queenM (mergedDfOf gdf k code) t := by
      rw [← reach_eq_of_mem queenM _ queenM_symm ht]
      exact ht2
    have hconn := sound_members hwf ht2' hcht hrowt htt hch2 hrow2 ht3
    rw [← hix] at hconn
    obtain ⟨jy, hjy⟩ := List.mem_iff_get.mp
      (codeList_chunk_sub hch2 _ (List.get_mem (codeList ch2 code) t3.1 t3.2))
    rw [← hjy] at hconn
    have hj_in : jy ∈ reach queenF (codeList gdf code) ix :=
      (mem_reach_iff_elem queenF _ hself).mpr hconn
    refine mem_classGeomIdx.mpr ⟨jy, hj_in, ?_⟩
    rw [hjy]
    exact hRt3
  · intro R hR
    rcases mem_classGeomIdx.mp hR with ⟨s, hsm, hRs⟩
    have helem : elemRTG queenF (codeList gdf code) ((codeList gdf code).get ix)
        ((codeList gdf code).get s) := (mem_reach_iff_elem queenF _ hself).mp hsm
    rw [hix] at helem
    obtain ⟨t4, ht4, ch4, hch4, r4, hrow4, t5, ht5, h5eq⟩ :=
      complete_members hwf hb hk hcht hrowt htt helem
    have ht4u : t4 ∈ reach queenM (mergedDfOf gdf k code) u := by
      rw [reach_eq_of_mem queenM _ queenM_symm ht]
      exact ht4
    refine mem_rowSumFor_geom.mpr ⟨t4, ht4u, ?_⟩
    rw [hrow4]
    apply rowFor_geom_subset ht5
    rw [h5eq]
    exact hRs

/-- The rows of the clean (non-degraded, non-skipped) path are exactly the
cross-chunk dissolve of the concatenated chunk results. -/
theorem processCode_rows_eq (gdf : List Feature) (k : ℕ) (fail : ℤ → Bool) (code : ℤ)
    (h0 : ¬ gdf.countP (fun f => decide (f.gridcode = code)) = 0)
    (hcr : ¬ (((create_spatial_chunks gdf k).filterMap
        (fun ch => process_chunk ch code)).filter (fun r => ¬ r.isEmpty)).isEmpty)
    (hfail : fail code = false) :
    (processCode gdf (create_spatial_chunks gdf k) fail code).rows =
      dissolve_sum (mergedDfOf gdf k code) := by
  rw [processCode, if_neg h0, if_neg hcr, if_neg (by simp [hfail])]
  rfl

/-- The per-code output geometries of the clean path are exactly the
component geometries of the global per-code Queen graph. -/
theorem processCode_geom_char {gdf : List Feature} {k : ℕ} {code : ℤ} (fail : ℤ → Bool)
    (hwf : FrameWF gdf) (hk : 1 ≤ k) (hfail : fail code = false) :
    (∀ row ∈ (processCode gdf (create_spatial_chunks gdf k) fail code).rows,
      ∃ i : Fin (codeList gdf code).length,
        row.geom = classGeomIdx (codeList gdf code) i) ∧
    (∀ i : Fin (codeList gdf code).length,
      ∃ row ∈ (processCode gdf (create_spatial_chunks gdf k) fail code).rows,
        row.geom = classGeomIdx (codeList gdf code) i) := by
  have hlen : gdf.countP (fun f => decide (f.gridcode = code)) =
      (codeList gdf code).length := by
    rw [codeList_def, List.countP_eq_length_filter]
  by_cases h0 : gdf.countP (fun f => decide (f.gridcode = code)) = 0
  · constructor
    · intro row hrow
      rw [processCode, if_pos h0] at hrow
      exact absurd hrow (List.not_mem_nil _)
    · intro i
      have := i.isLt
      omega
  · obtain ⟨a, ha, hacode⟩ : ∃ a ∈ gdf, decide (a.gridcode = code) = true := by
      by_contra hcon
      push_neg at hcon
      exact h0 (List.countP_eq_zero.mpr (by simpa using hcon))
    have hal : a ∈ codeList gdf code :=
      mem_codeList.mpr ⟨ha, of_decide_eq_true hacode⟩
    have hane : a.geom.Nonempty := (hwf a ha).2
    obtain ⟨r0, hr0⟩ := hane
    have hrects : (allRects gdf).Nonempty := ⟨r0, mem_allRects.mpr ⟨a, ha, hr0⟩⟩
    obtain ⟨tb, hb⟩ : ∃ tb, totalBounds gdf = some tb := by
      rw [totalBounds, dif_pos hrects]
      exact ⟨_, rfl⟩
    obtain ⟨ch0, hch0, hach0⟩ := feature_in_some_chunk hwf hb hk ha
    have hal0 : a ∈ codeList ch0 code :=
      mem_codeList.mpr ⟨hach0, of_decide_eq_true hacode⟩
    have hch0ne : codeList ch0 code ≠ [] := by
      intro hnil
      rw [hnil] at hal0
      exact absurd hal0 (List.not_mem_nil _)
    have hcr : ¬ (((create_spatial_chunks gdf k).filterMap
        (fun ch => process_chunk ch code)).filter (fun r => ¬ r.isEmpty)).isEmpty := by
      rw [List.isEmpty_iff]
      intro hnil
      have hmem : dissolve_count (codeList ch0 code) ∈
          ((create_spatial_chunks gdf k).filterMap
            (fun ch => process_chunk ch code)).filter (fun r => ¬ r.isEmpty) := by
        rw [List.mem_filter]
        constructor
        · apply List.mem_filterMap.mpr
          refine ⟨ch0, hch0, ?_⟩
          rw [process_chunk,
            if_neg (by rw [← codeList_def]; simpa [List.isEmpty_iff] using hch0ne)]
          rw [← codeList_def]
        · simpa [List.isEmpty_iff] using dissolve_count_ne_nil hch0ne
      rw [hnil] at hmem
      exact absurd hmem (List.not_mem_nil _)
    rw [processCode_rows_eq gdf k fail code h0 hcr hfail]
    constructor
    · intro row hrow
      rw [dissolve_sum] at hrow
      rcases List.mem_map.mp hrow with ⟨u, _hu, rfl⟩
      obtain ⟨chu, hchu, ru, _hru, hrowu⟩ :=
        mem_mergedDfOf.mp (List.get_mem (mergedDfOf gdf k code) u.1 u.2)
      obtain ⟨ix, hix⟩ := List.mem_iff_get.mp
        (codeList_chunk_sub hchu _ (List.get_mem (codeList chu code) ru.1 ru.2))
      exact ⟨ix, rowSum_geom_eq_classGeom hwf hb hk (mem_reach_self ..) hchu hrowu
        (mem_reach_self ..) hix⟩
    · intro i
      have hi_mem : (codeList gdf code).get i ∈ codeList gdf code := List.get_mem ..
      obtain ⟨higdf, hicode⟩ := mem_codeList.mp hi_mem
      obtain ⟨chi, hchi, hichi⟩ := feature_in_some_chunk hwf hb hk higdf
      have hil : (codeList gdf code).get i ∈ codeList chi code :=
        mem_codeList.mpr ⟨hichi, hicode⟩
      obtain ⟨p, hp⟩ := List.mem_iff_get.mp hil
      obtain ⟨rs, hrs, _hre, hpm⟩ := exists_rep queenF (codeList chi code) queenF_symm p
      have hrowstar : rowFor (codeList chi code) rs ∈ mergedDfOf gdf k code :=
        mem_mergedDfOf.mpr ⟨chi, hchi, rs, hrs, rfl⟩
      obtain ⟨tstar, htstar⟩ := List.mem_iff_get.mp hrowstar
      obtain ⟨u, hu, _hue, htsu⟩ := exists_rep queenM (mergedDfOf gdf k code) queenM_symm tstar
      refine ⟨rowSumFor (mergedDfOf gdf k code) u, ?_, ?_⟩
      · rw [dissolve_sum]
        exact List.mem_map.mpr ⟨u, hu, rfl⟩
      · exact rowSum_geom_eq_classGeom hwf hb hk htsu hchi htstar hpm hp.symm

/-! ## Pairwise separation and singleton components -/

/-- Distinct rows of a cross-chunk dissolve never share a vertex: components
are maximal. -/
theorem dissolve_sum_pairwise (m : List MergedRow) :
    List.Pairwise (fun r1 r2 => queenM r1 r2 = false) (dissolve_sum m) := by
  have hnd := compReps_nodup queenM m
  rw [dissolve_sum, List.pairwise_map, List.pairwise_iff_get]
  intro i j hij
  have hu1 : (compReps queenM m).get i ∈ compReps queenM m := List.get_mem ..
  have hu2 : (compReps queenM m).get j ∈ compReps queenM m := List.get_mem ..
  have hne : (compReps queenM m).get i ≠ (compReps queenM m).get j := by
    intro heq
    exact absurd ((List.Nodup.get_inj_iff hnd).mp heq) (Fin.ne_of_lt hij)
  apply Bool.eq_false_iff.mpr
  intro htrue
  obtain ⟨p, hp⟩ := queen_iff.mp htrue
  rw [Finset.mem_inter, rowSumFor_verts, rowSumFor_verts] at hp
  obtain ⟨hp1, hp2⟩ := hp
  rcases Finset.mem_biUnion.mp hp1 with ⟨t1, ht1, hpt1⟩
  rcases Finset.mem_biUnion.mp hp2 with ⟨t2, ht2, hpt2⟩
  have hadj : queenM (m.get t1) (m.get t2) = true :=
    queen_iff.mpr ⟨p, Finset.mem_inter.mpr ⟨hpt1, hpt2⟩⟩
  have ht2' : t2 ∈ reach queenM m ((compReps queenM m).get i) := by
    have hst := (mem_cstep queenM m).mpr (Or.inr ⟨t1, ht1, hadj⟩)
    rwa [reach_fixed queenM m] at hst
  exact hne (rep_eq_of_mem_both queenM m queenM_symm hu1 hu2 ht2' ht2)

/-- Distinct rows of a chunk dissolve never share a vertex. -/
theorem dissolve_count_pairwise (l : List Feature) :
    List.Pairwise (fun r1 r2 => queenM r1 r2 = false) (dissolve_count l) := by
  have hnd := compReps_nodup queenF l
  rw [dissolve_count, List.pairwise_map, List.pairwise_iff_get]
  intro i j hij
  have hu1 : (compReps queenF l).get i ∈ compReps queenF l := List.get_mem ..
  have hu2 : (compReps queenF l).get j ∈ compReps queenF l := List.get_mem ..
  have hne : (compReps queenF l).get i ≠ (compReps queenF l).get j := by
    intro heq
    exact absurd ((List.Nodup.get_inj_iff hnd).mp heq) (Fin.ne_of_lt hij)
  apply Bool.eq_false_iff.mpr
  intro htrue
  obtain ⟨p, hp⟩ := queen_iff.mp htrue
  rw [Finset.mem_inter, rowFor_verts, rowFor_verts] at hp
  obtain ⟨hp1, hp2⟩ := hp
  rcases Finset.mem_biUnion.mp hp1 with ⟨t1, ht1, hpt1⟩
  rcases Finset.mem_biUnion.mp hp2 with ⟨t2, ht2, hpt2⟩
  have hadj : queenF (l.get t1) (l.get t2) = true :=
    queen_iff.mpr ⟨p, Finset.mem_inter.mpr ⟨hpt1, hpt2⟩⟩
  have ht2' : t2 ∈ reach queenF l ((compReps queenF l).get i) := by
    have hst := (mem_cstep queenF l).mpr (Or.inr ⟨t1, ht1, hadj⟩)
    rwa [reach_fixed queenF l] at hst
  exact hne (rep_eq_of_mem_both queenF l queenF_symm hu1 hu2 ht2' ht2)

/-- With no adjacency between distinct rows, every reachable set is a
singleton. -/
theorem reach_singleton {α : Type} [DecidableEq α] (adj : α → α → Bool) (l : List α)
    (hpw : ∀ i j : Fin l.length, i ≠ j → adj (l.get i) (l.get j) = false)
    (i : Fin l.length) : reach adj l i = {i} := by
  have hfix : cstep adj l {i} = {i} := by
    ext j
    rw [mem_cstep]
    simp only [Finset.mem_singleton]
    constructor
    · rintro (rfl | ⟨i', hi', hadj⟩)
      · rfl
      · subst hi'
        by_contra hne
        rw [hpw i' j (fun h => hne h.symm)] at hadj
        exact Bool.false_ne_true hadj
    · rintro rfl
      exact Or.inl rfl
  rw [reach]
  exact Function.iterate_fixed hfix l.length

theorem compReps_all {α : Type} [DecidableEq α] (adj : α → α → Bool) (l : List α)
    (h : ∀ i : Fin l.length, reach adj l i = {i}) :
    compReps adj l = List.finRange l.length := by
  rw [compReps]
  apply List.filter_eq_self.mpr
  intro i _
  rw [decide_eq_true_eq, h i]
  intro j hj
  rw [Finset.mem_singleton] at hj
  exact hj ▸ le_rfl

theorem finRange_map_get {α β : Type} (l : List α) (g : α → β) :
    (List.finRange l.length).map (fun i => g (l.get i)) = l.map g := by
  rw [← List.ofFn_eq_map]
  conv_rhs => rw [← List.ofFn_get l]
  rw [List.map_ofFn]
  rfl

/-- A pairwise non-adjacent feature list dissolves into one singleton row per
feature, in order, each with `merged_count = 1`. -/
theorem dissolve_count_of_pairwise (l : List Feature)
    (hpw : ∀ i j : Fin l.length, i ≠ j → queenF (l.get i) (l.get j) = false) :
    dissolve_count l = l.map
      (fun f => { gridcode := f.gridcode, geom := f.geom, merged_count := 1 }) := by
  have hr := reach_singleton queenF l hpw
  rw [dissolve_count, compReps_all queenF l hr]
  have hrow : ∀ i : Fin l.length, rowFor l i =
      { gridcode := (l.get i).gridcode, geom := (l.get i).geom, merged_count := 1 } := by
    intro i
    rw [rowFor, hr i]
    simp
  rw [List.map_congr_left (fun i _ => hrow i)]
  exact finRange_map_get l
    (fun f => ({ gridcode := f.gridcode, geom := f.geom, merged_count := 1 } : MergedRow))

/-- A pairwise non-adjacent merged-row list is a fixed point of the
cross-chunk dissolve. -/
theorem dissolve_sum_of_pairwise (m : List MergedRow)
    (hpw : ∀ i j : Fin m.length, i ≠ j → queenM (m.get i) (m.get j) = false) :
    dissolve_sum m = m := by
  have hr := reach_singleton queenM m hpw
  rw [dissolve_sum, compReps_all queenM m hr]
  have hrow : ∀ i : Fin m.length, rowSumFor m i = m.get i := by
    intro i
    rw [rowSumFor, hr i]
    simp
  rw [List.map_congr_left (fun i _ => hrow i)]
  have := finRange_map_get m id
  simpa using this

/-! ## Well-formedness propagation and the single-chunk run -/

theorem dissolve_count_row_wf {gdf : List Feature} (hwf : FrameWF gdf) {l : List Feature}
    (hsub : ∀ x ∈ l, x ∈ gdf) :
    ∀ row ∈ dissolve_count l, (∀ R ∈ row.geom, R.WFR) ∧ row.geom.Nonempty := by
  intro row hrow
  rw [dissolve_count] at hrow
  rcases List.mem_map.mp hrow with ⟨r, _, rfl⟩
  constructor
  · intro R hR
    rcases Finset.mem_biUnion.mp hR with ⟨t, _, hRt⟩
    exact (hwf _ (hsub _ (List.get_mem ..))).1 R hRt
  · obtain ⟨R, hR⟩ := (hwf _ (hsub _ (List.get_mem l r.1 r.2))).2
    exact ⟨R, Finset.mem_biUnion.mpr ⟨r, mem_reach_self .., hR⟩⟩

theorem mergedDfOf_row_wf {gdf : List Feature} {k : ℕ} {code : ℤ} (hwf : FrameWF gdf) :
    ∀ row ∈ mergedDfOf gdf k code,
      (∀ R ∈ row.geom, R.WFR) ∧ row.geom.Nonempty := by
  intro row hrow
  obtain ⟨ch, hch, r, hr, rfl⟩ := mem_mergedDfOf.mp hrow
  have hsub : ∀ x ∈ codeList ch code, x ∈ gdf :=
    fun x hx => (mem_codeList.mp (codeList_chunk_sub hch x hx)).1
  exact dissolve_count_row_wf hwf hsub _
    (by rw [dissolve_count]; exact List.mem_map.mpr ⟨r, hr, rfl⟩)

theorem mergedDfOf_gridcode {gdf : List Feature} {k : ℕ} {code : ℤ} :
    ∀ row ∈ mergedDfOf gdf k code, row.gridcode = code := by
  intro row hrow
  obtain ⟨ch, hch, r, _, rfl⟩ := mem_mergedDfOf.mp hrow
  show ((codeList ch code).get r).gridcode = code
  exact (mem_codeList.mp (List.get_mem ..)).2

theorem dissolve_sum_row_wf {m : List MergedRow}
    (hm : ∀ row ∈ m, (∀ R ∈ row.geom, R.WFR) ∧ row.geom.Nonempty) :
    ∀ row ∈ dissolve_sum m, (∀ R ∈ row.geom, R.WFR) ∧ row.geom.Nonempty := by
  intro row hrow
  rw [dissolve_sum] at hrow
  rcases List.mem_map.mp hrow with ⟨r, _, rfl⟩
  constructor
  · intro R hR
    rcases Finset.mem_biUnion.mp hR with ⟨t, _, hRt⟩
    exact (hm _ (List.get_mem ..)).1 R hRt
  · obtain ⟨R, hR⟩ := (hm _ (List.get_mem m r.1 r.2)).2
    exact ⟨R, Finset.mem_biUnion.mpr ⟨r, mem_reach_self .., hR⟩⟩

theorem processCode_rows_wf {gdf : List Feature} {k : ℕ} {code : ℤ} (fail : ℤ → Bool)
    (hwf : FrameWF gdf) :
    ∀ row ∈ (processCode gdf (create_spatial_chunks gdf k) fail code).rows,
      (∀ R ∈ row.geom, R.WFR) ∧ row.geom.Nonempty := by
  rw [processCode]
  by_cases h0 : gdf.countP (fun f => decide (f.gridcode = code)) = 0
  · rw [if_pos h0]
    intro row hrow
    exact absurd hrow (List.not_mem_nil _)
  · rw [if_neg h0]
    by_cases hcr : ((create_spatial_chunks gdf k).filterMap
        (fun ch => process_chunk ch code)).filter (fun r => ¬ r.isEmpty) |>.isEmpty
    · rw [if_pos hcr]
      intro row hrow
      exact absurd hrow (List.not_mem_nil _)
    · rw [if_neg hcr]
      by_cases hf : fail code
      · rw [if_pos hf]
        exact fun row hrow => mergedDfOf_row_wf hwf row hrow
      · rw [if_neg hf]
        exact fun row hrow => dissolve_sum_row_wf (mergedDfOf_row_wf hwf) row hrow

theorem processCode_rows_pairwise {gdf : List Feature} {k : ℕ} {code : ℤ} :
    List.Pairwise (fun r1 r2 => queenM r1 r2 = false)
      (processCode gdf (create_spatial_chunks gdf k) noFail code).rows := by
  rw [processCode]
  by_cases h0 : gdf.countP (fun f => decide (f.gridcode = code)) = 0
  · rw [if_pos h0]
    exact List.Pairwise.nil
  · rw [if_neg h0]
    by_cases hcr : ((create_spatial_chunks gdf k).filterMap
        (fun ch => process_chunk ch code)).filter (fun r => ¬ r.isEmpty) |>.isEmpty
    · rw [if_pos hcr]
      exact List.Pairwise.nil
    · rw [if_neg hcr]
      rw [if_neg (by simp [noFail])]
      exact dissolve_sum_pairwise _

/-- With chunk count 1, a nonempty well-formed frame makes a single chunk
holding the whole frame. -/
theorem create_spatial_chunks_one {gdf : List Feature} (hwf : FrameWF gdf)
    (hne : gdf ≠ []) : create_spatial_chunks gdf 1 = [gdf] := by
  obtain ⟨f0, hf0⟩ := List.exists_mem_of_ne_nil gdf hne
  obtain ⟨r0, hr0⟩ := (hwf f0 hf0).2
  have hrects : (allRects gdf).Nonempty := ⟨r0, mem_allRects.mpr ⟨f0, hf0, hr0⟩⟩
  obtain ⟨tb, hb⟩ : ∃ tb, totalBounds gdf = some tb := by
    rw [totalBounds, dif_pos hrects]
    exact ⟨_, rfl⟩
  rw [create_spatial_chunks_eq gdf 1 tb hb]
  have hs1 : chunksPerSide 1 = 1 := by decide
  rw [hs1]
  have hcl : cellList tb 1 = [cellBox tb 1 0 0] := by
    rw [cellList]
    rfl
  rw [hcl]
  have hall : gdf.filter (fun f => geomMeets f.geom (cellBox tb 1 0 0)) = gdf := by
    apply List.filter_eq_self.mpr
    intro f hf
    obtain ⟨r, hr⟩ := (hwf f hf).2
    obtain ⟨hb1, hb2, hb3, hb4⟩ := totalBounds_bounds hb (mem_allRects.mpr ⟨f, hf, hr⟩)
    obtain ⟨hwx, hwy⟩ := (hwf f hf).1 r hr
    have hcell := cellBox_coords tb 1 0 0
    rw [geomMeets, decide_eq_true_eq]
    refine ⟨r, hr, ?_⟩
    rw [Rect.meets, decide_eq_true_eq, hcell]
    push_cast
    refine ⟨?_, ?_, ?_, ?_⟩
    · calc r.x1 ≤ r.x2 := hwx
        _ ≤ tb.x2 := hb2
        _ = tb.x1 + 0 * ((tb.x2 - tb.x1) / 1) + (tb.x2 - tb.x1) / 1 := by ring
    · calc tb.x1 + 0 * ((tb.x2 - tb.x1) / 1) = tb.x1 := by ring
        _ ≤ r.x1 := hb1
        _ ≤ r.x2 := hwx
    · calc r.y1 ≤ r.y2 := hwy
        _ ≤ tb.y2 := hb4
        _ = tb.y1 + 0 * ((tb.y2 - tb.y1) / 1) + (tb.y2 - tb.y1) / 1 := by ring
    · calc tb.y1 + 0 * ((tb.y2 - tb.y1) / 1) = tb.y1 := by ring
        _ ≤ r.y1 := hb3
        _ ≤ r.y2 := hwy
  rw [List.map_cons, List.map_nil, hall, List.filter_cons]
  rw [if_pos (by simpa [List.isEmpty_iff] using hne)]
  rfl

/-- A category with a matching feature never has empty chunk results (for
well-formed frames and a positive chunk count). -/
theorem chunkResults_not_empty {gdf : List Feature} {k : ℕ} {code : ℤ}
    (hwf : FrameWF gdf) {tb : Rect} (hb : totalBounds gdf = some tb) (hk : 1 ≤ k)
    {a : Feature} (ha : a ∈ gdf) (hac : a.gridcode = code) :
    ¬ (((create_spatial_chunks gdf k).filterMap
        (fun ch => process_chunk ch code)).filter (fun r => ¬ r.isEmpty)).isEmpty := by
  obtain ⟨ch0, hch0, hach0⟩ := feature_in_some_chunk hwf hb hk ha
  have hal0 : a ∈ codeList ch0 code := mem_codeList.mpr ⟨hach0, hac⟩
  have hch0ne : codeList ch0 code ≠ [] := by
    intro hnil
    rw [hnil] at hal0
    exact absurd hal0 (List.not_mem_nil _)
  rw [List.isEmpty_iff]
  intro hnil
  have hmem : dissolve_count (codeList ch0 code) ∈
      ((create_spatial_chunks gdf k).filterMap
        (fun ch => process_chunk ch code)).filter (fun r => ¬ r.isEmpty) := by
    rw [List.mem_filter]
    constructor
    · apply List.mem_filterMap.mpr
      refine ⟨ch0, hch0, ?_⟩
      rw [process_chunk,
        if_neg (by rw [← codeList_def]; simpa [List.isEmpty_iff] using hch0ne)]
      rw [← codeList_def]
    · simpa [List.isEmpty_iff] using dissolve_count_ne_nil hch0ne
  rw [hnil] at hmem
  exact absurd hmem (List.not_mem_nil _)

theorem pairwise_queenM_get {m : List MergedRow}
    (h : List.Pairwise (fun r1 r2 => queenM r1 r2 = false) m) :
    ∀ i j : Fin m.length, i ≠ j → queenM (m.get i) (m.get j) = false := by
  intro i j hne
  rw [List.pairwise_iff_get] at h
  rcases lt_or_gt_of_ne hne with hlt | hgt
  · exact h i j hlt
  · rw [queenM_symm]
    exact h j i hgt

theorem pairwise_queenF_get {l : List Feature}
    (h : List.Pairwise (fun a b => queenF a b = false) l) :
    ∀ i j : Fin l.length, i ≠ j → queenF (l.get i) (l.get j) = false := by
  intro i j hne
  rw [List.pairwise_iff_get] at h
  rcases lt_or_gt_of_ne hne with hlt | hgt
  · exact h i j hlt
  · rw [queenF_symm]
    exact h j i hgt

/-- On a single all-containing chunk with pairwise non-adjacent rows of the
processed code, the per-code loop returns one singleton row per feature. -/
theorem processCode_single_chunk (input : List Feature) (code : ℤ)
    (hchunks : create_spatial_chunks input 1 = [input])
    (hpw : ∀ i j : Fin (codeList input code).length, i ≠ j →
      queenF ((codeList input code).get i) ((codeList input code).get j) = false) :
    (processCode input (create_spatial_chunks input 1) noFail code).rows =
      (codeList input code).map
        (fun f => { gridcode := f.gridcode, geom := f.geom, merged_count := 1 }) := by
  rw [hchunks]
  by_cases h0 : input.countP (fun f => decide (f.gridcode = code)) = 0
  · rw [processCode, if_pos h0]
    have hnil : codeList input code = [] := by
      rw [codeList_def]
      apply List.length_eq_zero.mp
      rw [← List.countP_eq_length_filter]
      exact h0
    rw [hnil]
    rfl
  · have hlne : codeList input code ≠ [] := by
      intro hnil
      apply h0
      rw [List.countP_eq_length_filter, ← codeList_def, hnil]
      rfl
    have hpc : process_chunk input code = some (dissolve_count (codeList input code)) := by
      rw [process_chunk,
        if_neg (by rw [← codeList_def]; simpa [List.isEmpty_iff] using hlne)]
      rw [← codeList_def]
    have hdcne : dissolve_count (codeList input code) ≠ [] := dissolve_count_ne_nil hlne
    have hcrEq : (([input] : List (List Feature)).filterMap
        (fun ch => process_chunk ch code)).filter (fun r => ¬ r.isEmpty) =
        [dissolve_count (codeList input code)] := by
      simp only [List.filterMap_cons, List.filterMap_nil, hpc]
      rw [List.filter_cons, if_pos (by simpa [List.isEmpty_iff] using hdcne)]
      rfl
    rw [processCode, if_neg h0, hcrEq, if_neg (by simp), if_neg (by simp [noFail])]
    show dissolve_sum ([dissolve_count (codeList input code)].flatten) = _
    have hfl : ([dissolve_count (codeList input code)] :
        List (List MergedRow)).flatten = dissolve_count (codeList input code) := by
      simp
    rw [hfl, dissolve_sum_of_pairwise _
      (pairwise_queenM_get (dissolve_count_pairwise (codeList input code)))]
    exact dissolve_count_of_pairwise _ hpw

/-! ## Claim C3 — partition invariance -/

/-- The geometry set of the clean per-code output equals the set of global
component geometries, independently of the chunk count. -/
theorem processCode_geoms_set (fail : ℤ → Bool) (code : ℤ) {gdf : List Feature} {k : ℕ}
    (hwf : FrameWF gdf) (hk : 1 ≤ k) (hfail : fail code = false) :
    ((processCode gdf (create_spatial_chunks gdf k) fail code).rows.map
      (fun r => r.geom)).toFinset = classGeoms (codeList gdf code) := by
  obtain ⟨ha, hb⟩ := processCode_geom_char fail hwf hk hfail
  ext g
  simp only [List.mem_toFinset, List.mem_map, classGeoms, Finset.mem_image,
    Finset.mem_univ, true_and]
  constructor
  · rintro ⟨row, hrow, rfl⟩
    obtain ⟨i, hi⟩ := ha row hrow
    exact ⟨i, hi.symm⟩
  · rintro ⟨i, rfl⟩
    obtain ⟨row, hrow, hg⟩ := hb i
    exact ⟨row, hrow, hg⟩

/-- **C3**.  For a well-formed input frame and any chunk count `k ≥ 1`, the
set of final merged geometries written by the engine equals the one written
by the single-chunk run: the two-phase chunked merge produces exactly the
per-category connected-component geometries, independently of the
partitioning (exact rational geometry stands in for "up to floating-point
tolerance"). -/
theorem partition_invariance (gdf : List Feature) (k : ℕ) (keys keys' : List String)
    (hwf : FrameWF gdf) (hk : 1 ≤ k) :
    ((mergeGridRun gdf k noFail keys).file.rows.map (fun r => r.geom)).toFinset =
      ((mergeGridRun gdf 1 noFail keys').file.rows.map (fun r => r.geom)).toFinset := by
  have hrows : ∀ (k' : ℕ) (keys0 : List String),
      (mergeGridRun gdf k' noFail keys0).file.rows =
      (processCode gdf (create_spatial_chunks gdf k') noFail 12).rows ++
      (processCode gdf (create_spatial_chunks gdf k') noFail 60).rows := fun _ _ => rfl
  rw [hrows k keys, hrows 1 keys', List.map_append, List.map_append,
    List.toFinset_append, List.toFinset_append]
  rw [processCode_geoms_set noFail 12 hwf hk rfl,
    processCode_geoms_set noFail 60 hwf hk rfl,
    processCode_geoms_set noFail 12 hwf le_rfl rfl,
    processCode_geoms_set noFail 60 hwf le_rfl rfl]

/-- Witness for `partition_invariance`: the four-unit-square scenario of the
specification, 4 chunks against 1. -/
theorem partition_invariance_witness :
    ((mergeGridRun fourSquares 4 noFail []).file.rows.map (fun r => r.geom)).toFinset =
      ((mergeGridRun fourSquares 1 noFail []).file.rows.map (fun r => r.geom)).toFinset :=
  partition_invariance fourSquares 4 [] [] (by decide) (by decide)

/-! ## Claim C1 — count conservation -/

/-- **C1** (counterexample).  The single valid category-12 input feature of
`wideFrame` intersects all four spatial chunks of a 4-chunk run; each chunk
counts it once and the cross-chunk dissolve sums the four copies, so the
`merged_count` total of the final output for category 12 is `4`, not the
input feature count `1`: the claimed conservation fails exactly when a
feature intersects more than one spatial chunk. -/
theorem count_conservation_cex :
    ((((mergeGridRun wideFrame 4 noFail []).file.rows.filter
        (fun r => decide (r.gridcode = 12))).map MergedRow.merged_count).sum = 4) ∧
    wideFrame.countP (fun f => decide (f.gridcode = 12)) = 1 ∧
    ¬ ((((mergeGridRun wideFrame 4 noFail []).file.rows.filter
        (fun r => decide (r.gridcode = 12))).map MergedRow.merged_count).sum =
      wideFrame.countP (fun f => decide (f.gridcode = 12))) := by decide

/-- **C1** (amended).  For every processed category code and every input
frame, the sum of `merged_count` over the category's final output rows
equals the number of matching rows summed over all spatial chunks — i.e.
each valid input feature is counted once *per chunk it is assigned to*
(which is once in total only when no feature intersects several chunks);
equivalently, summed over the features, the count of grid cells whose box
the feature's geometry intersects. -/
theorem count_conservation_amended (gdf : List Feature) (k : ℕ) (fail : ℤ → Bool)
    (keys : List String) (code : ℤ) (hcode : code = 12 ∨ code = 60) :
    ((((mergeGridRun gdf k fail keys).file.rows.filter
        (fun r => decide (r.gridcode = code))).map MergedRow.merged_count).sum =
      ((create_spatial_chunks gdf k).map
        (fun ch => ch.countP (fun f => decide (f.gridcode = code)))).sum) ∧
    (∀ tb, totalBounds gdf = some tb →
      ((create_spatial_chunks gdf k).map
        (fun ch => ch.countP (fun f => decide (f.gridcode = code)))).sum =
      (gdf.map (fun f => if f.gridcode = code then
        (cellList tb (chunksPerSide k)).countP (fun b => geomMeets f.geom b) else 0)).sum) := by
  have hch : gdf.countP (fun f => decide (f.gridcode = code)) = 0 →
      ∀ ch ∈ create_spatial_chunks gdf k,
        ch.countP (fun f => decide (f.gridcode = code)) = 0 := by
    intro h0 ch hmem
    have := chunk_countP_le gdf k (fun f => decide (f.gridcode = code)) ch hmem
    omega
  constructor
  · rcases hcode with rfl | rfl
    · rw [(mergeGridRun_rows_split gdf k fail keys).1]
      exact processCode_sum gdf (create_spatial_chunks gdf k) fail 12 hch
    · rw [(mergeGridRun_rows_split gdf k fail keys).2]
      exact processCode_sum gdf (create_spatial_chunks gdf k) fail 60 hch
  · intro tb hb
    exact chunks_sum_eq_cells_sum gdf k tb hb code

/-- Witness for `count_conservation_amended` at the two-square frame. -/
theorem count_conservation_amended_witness :
    ((((mergeGridRun twoSquares 1 noFail []).file.rows.filter
        (fun r => decide (r.gridcode = 12))).map MergedRow.merged_count).sum =
      ((create_spatial_chunks twoSquares 1).map
        (fun ch => ch.countP (fun f => decide (f.gridcode = 12)))).sum) ∧
    (((create_spatial_chunks twoSquares 1).map
        (fun ch => ch.countP (fun f => decide (f.gridcode = 12)))).sum =
      (twoSquares.map (fun f => if f.gridcode = 12 then
        (cellList twoSquaresTB (chunksPerSide 1)).countP
          (fun b => geomMeets f.geom b) else 0)).sum) :=
  ⟨(count_conservation_amended twoSquares 1 noFail [] 12 (Or.inl rfl)).1,
   (count_conservation_amended twoSquares 1 noFail [] 12 (Or.inl rfl)).2
     twoSquaresTB (by decide)⟩

/-! ## Claim C4 — stitch-failure fallback and its observability -/

/-- **C4** (counterexample).  With the global re-merge raising on every code,
the 4-chunk run over `wideFrame` returns the four unstitched per-chunk rows
(instead of the single stitched row the clean run produces), yet neither the
`merge_stats` record nor the returned metadata keys carry any
`stitch_degraded` flag: the degraded outcome is not observable in the
returned statistics. -/
theorem stitch_fallback_cex :
    (mergeGridRun wideFrame 4 allFail []).file.rows.length = 4 ∧
    (mergeGridRun wideFrame 4 noFail []).file.rows.length = 1 ∧
    "stitch_degraded" ∉ (mergeGridRun wideFrame 4 allFail []).metadataKeys ∧
    (mergeGridRun wideFrame 4 allFail []).merge_stats =
      [(12, ⟨1, 4⟩), (60, ⟨0, 0⟩)] := by decide

/-- **C4** (amended).  Whenever the global cross-partition re-merge for a
category raises, the engine returns the unstitched per-partition merge
results for that category instead of failing the whole run; but the degraded
outcome is *not* flagged in the returned statistics: the engine adds no
`stitch_degraded` key (nor any other key beyond its three fixed metadata
updates), so callers cannot distinguish a clean stitch from a degraded one
from the returned record. -/
theorem stitch_fallback_amended (gdf : List Feature) (k : ℕ) (fail : ℤ → Bool)
    (keys : List String) (code : ℤ) (hf : fail code = true)
    (h0 : gdf.countP (fun f => decide (f.gridcode = code)) ≠ 0)
    (hcr : ¬ (((create_spatial_chunks gdf k).filterMap
        (fun ch => process_chunk ch code)).filter (fun r => ¬ r.isEmpty)).isEmpty) :
    ((processCode gdf (create_spatial_chunks gdf k) fail code).rows =
      (((create_spatial_chunks gdf k).filterMap (fun ch => process_chunk ch code)).filter
        (fun r => ¬ r.isEmpty)).flatten) ∧
    ("stitch_degraded" ∉ keys →
      "stitch_degraded" ∉ (mergeGridRun gdf k fail keys).metadataKeys) := by
  constructor
  · rw [processCode, if_neg h0, if_neg hcr, if_pos hf]
  · intro hsd hmem
    have : (mergeGridRun gdf k fail keys).metadataKeys = updatedMetaKeys keys := rfl
    rw [this, updatedMetaKeys] at hmem
    rcases List.mem_append.mp hmem with h | h
    · exact hsd h
    · rw [List.mem_filter] at h
      have := h.1
      simp only [List.mem_cons, List.not_mem_nil, or_false] at this
      rcases this with h' | h' | h' <;> exact absurd h' (by decide)

/-- Witness for `stitch_fallback_amended` at the wide-rectangle frame. -/
theorem stitch_fallback_amended_witness :
    ((processCode wideFrame (create_spatial_chunks wideFrame 4) allFail 12).rows =
      (((create_spatial_chunks wideFrame 4).filterMap
        (fun ch => process_chunk ch 12)).filter (fun r => ¬ r.isEmpty)).flatten) ∧
    ("stitch_degraded" ∉ ([] : List String) →
      "stitch_degraded" ∉ (mergeGridRun wideFrame 4 allFail []).metadataKeys) :=
  stitch_fallback_amended wideFrame 4 allFail [] 12 (by decide) (by decide) (by decide)

/-! ## Claim C5 — CRS invariant enforcement -/

/-- **C5**.  If the input frame carries a CRS tag other than EPSG:4326, the
merge aborts with the `ValueError` message and produces no output file (the
run result, which carries the written file, does not exist on the error
path); if the CRS tag is absent, EPSG:4326 is assigned and the run is
identical to a run on an EPSG:4326-tagged frame. -/
theorem crs_guard (gdf : List Feature) (k : ℕ) (fail : ℤ → Bool) (keys : List String)
    (c : ℕ) (hc : c ≠ 4326) :
    merge_grid (some c) gdf k fail keys = Except.error (crsErrorMsg c) ∧
    merge_grid none gdf k fail keys = merge_grid (some 4326) gdf k fail keys := by
  constructor
  · rw [merge_grid]
    simp only [if_neg hc]
  · rfl

/-- Witness for `crs_guard` at EPSG:25832 (the UTM zone the docstring of the
source mentions). -/
theorem crs_guard_witness :
    merge_grid (some 25832) wideFrame 4 noFail [] = Except.error (crsErrorMsg 25832) ∧
    merge_grid none wideFrame 4 noFail [] = merge_grid (some 4326) wideFrame 4 noFail [] :=
  crs_guard wideFrame 4 noFail [] 25832 (by decide)

/-! ## Claim C9 — output serializer contract -/

/-- **C9**.  Every run that reaches serialization writes a file whose spatial
metadata names the primary geometry column `geometry`, the `WKB` encoding and
the `EPSG:4326` CRS; when no category has any feature the file is still
written — with the same metadata and an empty row list — and the statistics
report zero original features, so a missing file is never the signal for "no
features". -/
theorem serializer_contract (gdf : List Feature) (k : ℕ) (fail : ℤ → Bool)
    (keys : List String) :
    ((mergeGridRun gdf k fail keys).file.geo =
      { primary_column := "geometry", encoding := "WKB", crs := "EPSG:4326" }) ∧
    (∀ res, merge_grid (some 4326) gdf k fail keys = Except.ok res →
      res.file.geo =
        { primary_column := "geometry", encoding := "WKB", crs := "EPSG:4326" }) ∧
    (gdf.countP (fun f => decide (f.gridcode = 12)) = 0 →
     gdf.countP (fun f => decide (f.gridcode = 60)) = 0 →
      (mergeGridRun gdf k fail keys).file.rows = [] ∧
      (mergeGridRun gdf k fail keys).merge_stats = [(12, ⟨0, 0⟩), (60, ⟨0, 0⟩)]) := by
  refine ⟨rfl, ?_, ?_⟩
  · intro res h
    have hok : (Except.ok (mergeGridRun gdf k fail keys) : Except String RunResult) =
        Except.ok res := by
      rw [← h, merge_grid, if_pos rfl]
    rw [← Except.ok.inj hok]
    rfl
  · intro h12 h60
    have hr12 : processCode gdf (create_spatial_chunks gdf k) fail 12 = ⟨[], 0⟩ := by
      rw [processCode, if_pos h12]
    have hr60 : processCode gdf (create_spatial_chunks gdf k) fail 60 = ⟨[], 0⟩ := by
      rw [processCode, if_pos h60]
    constructor
    · have hrows : (mergeGridRun gdf k fail keys).file.rows =
        (processCode gdf (create_spatial_chunks gdf k) fail 12).rows ++
        (processCode gdf (create_spatial_chunks gdf k) fail 60).rows := rfl
      rw [hrows, hr12, hr60]
      rfl
    · have hstats : (mergeGridRun gdf k fail keys).merge_stats =
        [(12, (⟨gdf.countP (fun f => decide (f.gridcode = 12)),
            (processCode gdf (create_spatial_chunks gdf k) fail 12).merged_features⟩ :
              StatsEntry)),
         (60, (⟨gdf.countP (fun f => decide (f.gridcode = 60)),
            (processCode gdf (create_spatial_chunks gdf k) fail 60).merged_features⟩ :
              StatsEntry))] := rfl
      rw [hstats, hr12, hr60, h12, h60]

/-- Witness for `serializer_contract` at an empty frame. -/
theorem serializer_contract_witness :
    ((mergeGridRun [] 4 noFail []).file.geo =
      { primary_column := "geometry", encoding := "WKB", crs := "EPSG:4326" }) ∧
    ((mergeGridRun [] 4 noFail []).file.rows = [] ∧
      (mergeGridRun [] 4 noFail []).merge_stats = [(12, ⟨0, 0⟩), (60, ⟨0, 0⟩)]) :=
  ⟨(serializer_contract [] 4 noFail []).1,
   (serializer_contract [] 4 noFail []).2.2 (by decide) (by decide)⟩

/-! ## Claim C7 — partitioner algorithm -/

/-- **C7**.  For a frame with a bounding box and a target chunk count
`k ≥ 1`: the side count is the ceiling of the square root of `k`
(characterised arithmetically), every grid cell has width
`(maxx - minx) / s` and height `(maxy - miny) / s` (equal-size cells), the
returned chunks are exactly the nonempty cell sub-frames — each chunk is the
list of features whose geometry intersects its cell's box, empty cells being
omitted — and an empty input frame yields an empty chunk list rather than an
error. -/
theorem partitioner_contract (gdf : List Feature) (k : ℕ) (tb : Rect)
    (hb : totalBounds gdf = some tb) (hk : 1 ≤ k) :
    (k ≤ chunksPerSide k * chunksPerSide k ∧
      (chunksPerSide k - 1) * (chunksPerSide k - 1) < k) ∧
    (∀ i j : ℕ,
      qsub (cellBox tb (chunksPerSide k) i j).x2 (cellBox tb (chunksPerSide k) i j).x1 =
        qdivN (qsub tb.x2 tb.x1) (chunksPerSide k) ∧
      qsub (cellBox tb (chunksPerSide k) i j).y2 (cellBox tb (chunksPerSide k) i j).y1 =
        qdivN (qsub tb.y2 tb.y1) (chunksPerSide k)) ∧
    (∀ ch ∈ create_spatial_chunks gdf k, ∃ i < chunksPerSide k, ∃ j < chunksPerSide k,
      ch = gdf.filter (fun f => geomMeets f.geom (cellBox tb (chunksPerSide k) i j)) ∧
        ch ≠ []) ∧
    (∀ i < chunksPerSide k, ∀ j < chunksPerSide k,
      gdf.filter (fun f => geomMeets f.geom (cellBox tb (chunksPerSide k) i j)) ≠ [] →
      gdf.filter (fun f => geomMeets f.geom (cellBox tb (chunksPerSide k) i j)) ∈
        create_spatial_chunks gdf k) ∧
    create_spatial_chunks ([] : List Feature) k = [] := by
  refine ⟨?_, ?_, ?_, ?_, ?_⟩
  · rw [chunksPerSide_eq]
    by_cases hsq : Nat.sqrt k * Nat.sqrt k = k
    · rw [if_pos hsq]
      have h1 : 1 ≤ Nat.sqrt k := by
        rw [Nat.one_le_iff_ne_zero, Ne, Nat.sqrt_eq_zero]
        omega
      refine ⟨le_of_eq hsq.symm, ?_⟩
      have h2 : Nat.sqrt k - 1 < Nat.sqrt k := by omega
      have := Nat.mul_self_lt_mul_self h2
      omega
    · rw [if_neg hsq]
      have h1 := Nat.sqrt_le k
      have h2 := Nat.lt_succ_sqrt k
      constructor
      · simpa [Nat.succ_eq_add_one] using le_of_lt h2
      · simpa using lt_of_le_of_ne h1 hsq
  · intro i j
    constructor
    · simp only [cellBox, qsub_eq, qadd_eq]
      ring
    · simp only [cellBox, qsub_eq, qadd_eq]
      ring
  · intro ch hch
    exact mem_create_spatial_chunks tb hb hch
  · intro i hi j hj hne
    exact filter_mem_create_spatial_chunks tb hb hi hj hne
  · rw [create_spatial_chunks]
    have : totalBounds ([] : List Feature) = none := rfl
    rw [this]

/-- Witness for `partitioner_contract` at the two-square frame with the
default chunk count 4. -/
theorem partitioner_contract_witness :
    (4 ≤ chunksPerSide 4 * chunksPerSide 4 ∧
      (chunksPerSide 4 - 1) * (chunksPerSide 4 - 1) < 4) ∧
    (qsub (cellBox twoSquaresTB (chunksPerSide 4) 0 1).x2
        (cellBox twoSquaresTB (chunksPerSide 4) 0 1).x1 =
      qdivN (qsub twoSquaresTB.x2 twoSquaresTB.x1) (chunksPerSide 4)) ∧
    create_spatial_chunks ([] : List Feature) 4 = [] :=
  ⟨(partitioner_contract twoSquares 4 twoSquaresTB (by decide) (by decide)).1,
   ((partitioner_contract twoSquares 4 twoSquaresTB (by decide) (by decide)).2.1 0 1).1,
   (partitioner_contract twoSquares 4 twoSquaresTB (by decide) (by decide)).2.2.2.2⟩

/-! ## Claim C8 — per-component `merged_count` -/

/-- There are exactly as many component representatives as there are distinct
components. -/
theorem compReps_length_eq {α : Type} [DecidableEq α] (adj : α → α → Bool) (l : List α)
    (hs : ∀ a b : α, adj a b = adj b a) :
    (compReps adj l).length = (Finset.univ.image (reach adj l)).card := by
  classical
  have himg : Finset.univ.image (reach adj l) =
      (compReps adj l).toFinset.image (reach adj l) := by
    ext S
    simp only [Finset.mem_image, Finset.mem_univ, true_and, List.mem_toFinset]
    constructor
    · rintro ⟨i, rfl⟩
      obtain ⟨r, hr, hre, _⟩ := exists_rep adj l hs i
      exact ⟨r, hr, hre⟩
    · rintro ⟨r, _, rfl⟩
      exact ⟨r, rfl⟩
  rw [himg, Finset.card_image_of_injOn, List.toFinset_card_of_nodup (compReps_nodup adj l)]
  intro r hr r' hr' heq
  rw [Finset.mem_coe, List.mem_toFinset] at hr hr'
  exact rep_eq_of_mem_both adj l hs hr hr' (mem_reach_self adj l r)
    (heq ▸ mem_reach_self adj l r)

/-- **C8**.  Within one chunk scope, `process_chunk` emits exactly one
`MergedRow` per connected component of the Queen contiguity graph of the
category's features (connectivity being precisely reflexive-transitive Queen
adjacency); each row's geometry is the union of the member geometries and its
`merged_count` is the number of members, i.e. the sum of the default weight 1
over the members (a singleton component yielding `merged_count = 1`).  In
the re-merge scope, `dissolve_sum` emits one row per component of the
incoming rows whose `merged_count` is the sum of the members' own
`merged_count` values. -/
theorem component_merger_contract (ch : List Feature) (code : ℤ) (rows : List MergedRow)
    (h : process_chunk ch code = some rows) (m : List MergedRow) :
    ((∀ i j : Fin (ch.filter (fun f => decide (f.gridcode = code))).length,
        j ∈ reach queenF (ch.filter (fun f => decide (f.gridcode = code))) i ↔
        Relation.ReflTransGen
          (adjRel queenF (ch.filter (fun f => decide (f.gridcode = code)))) i j) ∧
     rows.length = (Finset.univ.image
        (reach queenF (ch.filter (fun f => decide (f.gridcode = code))))).card ∧
     (∀ row ∈ rows, ∃ i : Fin (ch.filter (fun f => decide (f.gridcode = code))).length,
        row.geom = (reach queenF (ch.filter (fun f => decide (f.gridcode = code))) i).biUnion
          (fun t => ((ch.filter (fun f => decide (f.gridcode = code))).get t).geom) ∧
        row.merged_count =
          (reach queenF (ch.filter (fun f => decide (f.gridcode = code))) i).card ∧
        row.merged_count =
          ∑ _t ∈ reach queenF (ch.filter (fun f => decide (f.gridcode = code))) i, 1 ∧
        ((reach queenF (ch.filter (fun f => decide (f.gridcode = code))) i).card = 1 →
          row.merged_count = 1)) ∧
     (∀ i : Fin (ch.filter (fun f => decide (f.gridcode = code))).length, ∃ row ∈ rows,
        row.geom = (reach queenF (ch.filter (fun f => decide (f.gridcode = code))) i).biUnion
          (fun t => ((ch.filter (fun f => decide (f.gridcode = code))).get t).geom) ∧
        row.merged_count =
          (reach queenF (ch.filter (fun f => decide (f.gridcode = code))) i).card)) ∧
    (∀ row ∈ dissolve_sum m, ∃ i : Fin m.length,
       row.geom = (reach queenM m i).biUnion (fun t => (m.get t).geom) ∧
       row.merged_count = ∑ t ∈ reach queenM m i, (m.get t).merged_count) := by
  obtain ⟨hrows, -⟩ := process_chunk_some_facts h
  subst hrows
  refine ⟨⟨fun i j => mem_reach_iff queenF _, ?_, ?_, ?_⟩, ?_⟩
  · rw [dissolve_count, List.length_map]
    exact compReps_length_eq queenF _ queenF_symm
  · intro row hrow
    rw [dissolve_count] at hrow
    rcases List.mem_map.mp hrow with ⟨r, _, rfl⟩
    refine ⟨r, rfl, rfl, ?_, ?_⟩
    · show (reach queenF _ r).card = _
      rw [Finset.card_eq_sum_ones]
    · intro h1
      exact h1
  · intro i
    obtain ⟨r, hr, hre, _⟩ := exists_rep queenF _ queenF_symm i
    refine ⟨_, List.mem_map.mpr ⟨r, hr, rfl⟩, ?_, ?_⟩
    · show (reach queenF _ r).biUnion _ = _
      rw [hre]
    · show (reach queenF _ r).card = _
      rw [hre]
  · intro row hrow
    rw [dissolve_sum] at hrow
    rcases List.mem_map.mp hrow with ⟨r, _, rfl⟩
    exact ⟨r, rfl, rfl⟩

/-- Witness for `component_merger_contract` at the corner-touching two-square
frame: the single component of the two category-12 squares yields exactly one
row. -/
theorem component_merger_contract_witness :
    ([({ gridcode := 12, geom := {⟨0, 0, 1, 1⟩, ⟨1, 1, 2, 2⟩}, merged_count := 2 } :
        MergedRow)] : List MergedRow).length =
      (Finset.univ.image
        (reach queenF (twoSquares.filter (fun f => decide (f.gridcode = 12))))).card :=
  (component_merger_contract twoSquares 12 _ (by decide) []).1.2.1

/-! ## Claim C10 — hard-coded category universe -/

/-- **C10**.  Every row of the written file carries gridcode 12 or 60 (other
codes are silently excluded), the per-category statistics record contains
exactly the keys 12 and 60 regardless of the data, and a code with no
matching features contributes no rows and is skipped without error. -/
theorem category_universe (gdf : List Feature) (k : ℕ) (fail : ℤ → Bool)
    (keys : List String) :
    (∀ row ∈ (mergeGridRun gdf k fail keys).file.rows,
      row.gridcode = 12 ∨ row.gridcode = 60) ∧
    ((mergeGridRun gdf k fail keys).merge_stats.map Prod.fst = [12, 60]) ∧
    (∀ code : ℤ, gdf.countP (fun f => decide (f.gridcode = code)) = 0 →
      (processCode gdf (create_spatial_chunks gdf k) fail code).rows = []) := by
  refine ⟨?_, rfl, ?_⟩
  · intro row hrow
    rcases List.mem_append.mp hrow with h | h
    · exact Or.inl (processCode_rows_gridcode gdf (create_spatial_chunks gdf k) fail 12 row h)
    · exact Or.inr (processCode_rows_gridcode gdf (create_spatial_chunks gdf k) fail 60 row h)
  · intro code h0
    rw [processCode, if_pos h0]

/-- Witness for `category_universe` at a frame holding a category the engine
does not process (37) next to a category-12 feature. -/
theorem category_universe_witness :
    ((mergeGridRun [⟨37, {⟨0, 0, 1, 1⟩}⟩, ⟨12, {⟨3, 3, 4, 4⟩}⟩] 1 noFail []).merge_stats.map
      Prod.fst = [12, 60]) ∧
    (({ gridcode := 12, geom := {⟨3, 3, 4, 4⟩}, merged_count := 1 } : MergedRow).gridcode = 12 ∨
     ({ gridcode := 12, geom := {⟨3, 3, 4, 4⟩}, merged_count := 1 } : MergedRow).gridcode = 60) ∧
    (processCode [⟨37, {⟨0, 0, 1, 1⟩}⟩, ⟨12, {⟨3, 3, 4, 4⟩}⟩]
      (create_spatial_chunks [⟨37, {⟨0, 0, 1, 1⟩}⟩, ⟨12, {⟨3, 3, 4, 4⟩}⟩] 1) noFail 60).rows
      = [] :=
  ⟨(category_universe [⟨37, {⟨0, 0, 1, 1⟩}⟩, ⟨12, {⟨3, 3, 4, 4⟩}⟩] 1 noFail []).2.1,
   (category_universe [⟨37, {⟨0, 0, 1, 1⟩}⟩, ⟨12, {⟨3, 3, 4, 4⟩}⟩] 1 noFail []).1 _ (by decide),
   (category_universe [⟨37, {⟨0, 0, 1, 1⟩}⟩, ⟨12, {⟨3, 3, 4, 4⟩}⟩] 1 noFail []).2.2 60 (by decide)⟩

/-! ## Claim C2 — the contiguity rule of the merger -/

/-- The rows of the degraded (stitch-failed) path are exactly the
concatenated chunk results. -/
theorem processCode_rows_fail (gdf : List Feature) (k : ℕ) (fail : ℤ → Bool) (code : ℤ)
    (h0 : ¬ gdf.countP (fun f => decide (f.gridcode = code)) = 0)
    (hcr : ¬ (((create_spatial_chunks gdf k).filterMap
        (fun ch => process_chunk ch code)).filter (fun r => ¬ r.isEmpty)).isEmpty)
    (hfail : fail code = true) :
    (processCode gdf (create_spatial_chunks gdf k) fail code).rows =
      mergedDfOf gdf k code := by
  rw [processCode, if_neg h0, if_neg hcr, if_pos (by simp [hfail])]
  rfl

/-- **C2** (counterexample).  The specification's contiguity rule — two
same-category geometries are merged whenever their boundaries share at least
one point — fails: `libpysal`'s Queen criterion demands a shared *vertex*.
The two `edgeSquares` touch along an edge segment (the point
`(1, 1/2)` lies on both boundaries), yet the engine emits two separate rows
and no output row contains both geometries. -/
theorem touch_closure_cex :
    boundariesTouch ({⟨0, 0, 1, 1⟩} : Geom) ({⟨1, mkRat 1 2, 2, mkRat 3 2⟩} : Geom) ∧
    (mergeGridRun edgeSquares 1 noFail []).file.rows.length = 2 ∧
    ¬ ∃ row ∈ (mergeGridRun edgeSquares 1 noFail []).file.rows,
        ({⟨0, 0, 1, 1⟩} : Geom) ⊆ row.geom ∧
        ({⟨1, mkRat 1 2, 2, mkRat 3 2⟩} : Geom) ⊆ row.geom := by
  refine ⟨⟨(1, mkRat 1 2), ⟨⟨0, 0, 1, 1⟩, by decide, by decide⟩,
    ⟨⟨1, mkRat 1 2, 2, mkRat 3 2⟩, by decide, by decide⟩⟩, by decide, by decide⟩

/-- **C2** (amended).  With the contiguity rule corrected to `libpysal`'s
Queen criterion — the two geometries share at least one *vertex* — the claim
holds across the whole engine: any two same-category features of a
well-formed frame whose geometries share a vertex end up inside one output
row of that category, for every chunk count `k ≥ 1` and even when the global
re-merge degrades. -/
theorem touch_closure_amended (gdf : List Feature) (k : ℕ) (fail : ℤ → Bool)
    (keys : List String) (code : ℤ) (A B : Feature)
    (hwf : FrameWF gdf) (hk : 1 ≤ k) (hcode : code = 12 ∨ code = 60)
    (hA : A ∈ gdf) (hB : B ∈ gdf) (hAc : A.gridcode = code) (hBc : B.gridcode = code)
    (hshared : queen A.geom B.geom = true) :
    ∃ row ∈ (mergeGridRun gdf k fail keys).file.rows,
      row.gridcode = code ∧ A.geom ⊆ row.geom ∧ B.geom ⊆ row.geom := by
  obtain ⟨rA, hrA⟩ := (hwf A hA).2
  have hrects : (allRects gdf).Nonempty := ⟨rA, mem_allRects.mpr ⟨A, hA, hrA⟩⟩
  obtain ⟨tb, hb⟩ : ∃ tb, totalBounds gdf = some tb := by
    rw [totalBounds, dif_pos hrects]
    exact ⟨_, rfl⟩
  obtain ⟨ch, hch, hAch, hBch⟩ := common_chunk_of_queen hwf hb hk hA hB hshared
  have hAl : A ∈ codeList ch code := mem_codeList.mpr ⟨hAch, hAc⟩
  have hBl : B ∈ codeList ch code := mem_codeList.mpr ⟨hBch, hBc⟩
  obtain ⟨p, hp⟩ := List.mem_iff_get.mp hAl
  obtain ⟨q, hq⟩ := List.mem_iff_get.mp hBl
  obtain ⟨rs, hrs, -, hpm⟩ := exists_rep queenF (codeList ch code) queenF_symm p
  have hadjpq : queenF ((codeList ch code).get p) ((codeList ch code).get q) = true := by
    rw [hp, hq]
    exact hshared
  have hqm : q ∈ reach queenF (codeList ch code) rs := by
    have hstep : q ∈ cstep queenF (codeList ch code)
        (reach queenF (codeList ch code) rs) :=
      (mem_cstep queenF (codeList ch code)).mpr (Or.inr ⟨p, hpm, hadjpq⟩)
    rwa [reach_fixed queenF (codeList ch code) rs] at hstep
  have hAsub : A.geom ⊆ (rowFor (codeList ch code) rs).geom := by
    have h1 := rowFor_geom_subset hpm
    rwa [hp] at h1
  have hBsub : B.geom ⊆ (rowFor (codeList ch code) rs).geom := by
    have h1 := rowFor_geom_subset hqm
    rwa [hq] at h1
  have hrowM : rowFor (codeList ch code) rs ∈ mergedDfOf gdf k code :=
    mem_mergedDfOf.mpr ⟨ch, hch, rs, hrs, rfl⟩
  have h0 : ¬ gdf.countP (fun f => decide (f.gridcode = code)) = 0 := by
    intro h0
    have := List.countP_eq_zero.mp h0 A hA
    simp [hAc] at this
  have hcr := chunkResults_not_empty hwf hb hk hA hAc
  have hout : ∃ row ∈ (processCode gdf (create_spatial_chunks gdf k) fail code).rows,
      (rowFor (codeList ch code) rs).geom ⊆ row.geom := by
    by_cases hf : fail code = true
    · rw [processCode_rows_fail gdf k fail code h0 hcr hf]
      exact ⟨_, hrowM, Finset.Subset.refl _⟩
    · have hf' : fail code = false := by
        cases hfc : fail code
        · rfl
        · exact absurd hfc hf
      rw [processCode_rows_eq gdf k fail code h0 hcr hf']
      obtain ⟨tstar, htstar⟩ := List.mem_iff_get.mp hrowM
      obtain ⟨u, hu, -, htsu⟩ :=
        exists_rep queenM (mergedDfOf gdf k code) queenM_symm tstar
      refine ⟨rowSumFor (mergedDfOf gdf k code) u, ?_, ?_⟩
      · rw [dissolve_sum]
        exact List.mem_map.mpr ⟨u, hu, rfl⟩
      · have h2 := rowSumFor_geom_subset htsu
        rwa [htstar] at h2
  obtain ⟨row, hrow, hsub⟩ := hout
  have hgc := processCode_rows_gridcode gdf (create_spatial_chunks gdf k) fail code row hrow
  have hengine : (mergeGridRun gdf k fail keys).file.rows =
      (processCode gdf (create_spatial_chunks gdf k) fail 12).rows ++
      (processCode gdf (create_spatial_chunks gdf k) fail 60).rows := rfl
  refine ⟨row, ?_, hgc, hAsub.trans hsub, hBsub.trans hsub⟩
  rw [hengine]
  rcases hcode with rfl | rfl
  · exact List.mem_append_left _ hrow
  · exact List.mem_append_right _ hrow

/-- Witness for `touch_closure_amended`: the corner-touching `twoSquares`
under a 4-chunk run. -/
theorem touch_closure_amended_witness :
    ∃ row ∈ (mergeGridRun twoSquares 4 noFail []).file.rows,
      row.gridcode = 12 ∧ ({⟨0, 0, 1, 1⟩} : Geom) ⊆ row.geom ∧
        ({⟨1, 1, 2, 2⟩} : Geom) ⊆ row.geom :=
  touch_closure_amended twoSquares 4 noFail [] 12
    { gridcode := 12, geom := {⟨0, 0, 1, 1⟩} } { gridcode := 12, geom := {⟨1, 1, 2, 2⟩} }
    (by decide) (by decide) (Or.inl rfl) (by decide) (by decide) rfl rfl (by decide)

/-! ## Claim C6 — idempotence of the merge -/

theorem codeList_rerun_left (m1 m2 : List MergedRow) (code : ℤ)
    (h1 : ∀ r ∈ m1, r.gridcode = code) (h2 : ∀ r ∈ m2, ¬ r.gridcode = code) :
    codeList ((m1 ++ m2).map MergedRow.toFeature) code = m1.map MergedRow.toFeature := by
  rw [codeList_def, List.map_append, List.filter_append]
  have ha : (m1.map MergedRow.toFeature).filter (fun f => decide (f.gridcode = code)) =
      m1.map MergedRow.toFeature := by
    apply List.filter_eq_self.mpr
    intro f hf
    rcases List.mem_map.mp hf with ⟨r, hr, rfl⟩
    simpa [MergedRow.toFeature] using h1 r hr
  have hb : (m2.map MergedRow.toFeature).filter (fun f => decide (f.gridcode = code)) =
      [] := by
    apply List.filter_eq_nil_iff.mpr
    intro f hf
    rcases List.mem_map.mp hf with ⟨r, hr, rfl⟩
    simpa [MergedRow.toFeature] using h2 r hr
  rw [ha, hb, List.append_nil]

theorem codeList_rerun_right (m1 m2 : List MergedRow) (code : ℤ)
    (h1 : ∀ r ∈ m1, ¬ r.gridcode = code) (h2 : ∀ r ∈ m2, r.gridcode = code) :
    codeList ((m1 ++ m2).map MergedRow.toFeature) code = m2.map MergedRow.toFeature := by
  rw [codeList_def, List.map_append, List.filter_append]
  have ha : (m1.map MergedRow.toFeature).filter (fun f => decide (f.gridcode = code)) =
      [] := by
    apply List.filter_eq_nil_iff.mpr
    intro f hf
    rcases List.mem_map.mp hf with ⟨r, hr, rfl⟩
    simpa [MergedRow.toFeature] using h1 r hr
  have hb : (m2.map MergedRow.toFeature).filter (fun f => decide (f.gridcode = code)) =
      m2.map MergedRow.toFeature := by
    apply List.filter_eq_self.mpr
    intro f hf
    rcases List.mem_map.mp hf with ⟨r, hr, rfl⟩
    simpa [MergedRow.toFeature] using h2 r hr
  rw [ha, hb, List.nil_append]

/-- Re-feeding any pair of per-code row lists that are internally pairwise
non-adjacent, well-formed and correctly coded through a 1-chunk engine run
reproduces the rows with every `merged_count` reset to 1. -/
theorem rerun_resets_counts (m1 m2 : List MergedRow) (keys' : List String)
    (h1c : ∀ r ∈ m1, r.gridcode = 12) (h2c : ∀ r ∈ m2, r.gridcode = 60)
    (h1wf : ∀ r ∈ m1, (∀ R ∈ r.geom, R.WFR) ∧ r.geom.Nonempty)
    (h2wf : ∀ r ∈ m2, (∀ R ∈ r.geom, R.WFR) ∧ r.geom.Nonempty)
    (h1pw : List.Pairwise (fun a b => queenM a b = false) m1)
    (h2pw : List.Pairwise (fun a b => queenM a b = false) m2) :
    (mergeGridRun ((m1 ++ m2).map MergedRow.toFeature) 1 noFail keys').file.rows =
      (m1 ++ m2).map
        (fun r => { gridcode := r.gridcode, geom := r.geom, merged_count := 1 }) := by
  by_cases hne : (m1 ++ m2) = []
  · rw [hne]
    rfl
  · have hinne : ((m1 ++ m2).map MergedRow.toFeature) ≠ [] := by
      simpa using hne
    have hwfin : FrameWF ((m1 ++ m2).map MergedRow.toFeature) := by
      intro f hf
      rcases List.mem_map.mp hf with ⟨r, hr, rfl⟩
      rcases List.mem_append.mp hr with hr1 | hr2
      · exact h1wf r hr1
      · exact h2wf r hr2
    have hchunks := create_spatial_chunks_one hwfin hinne
    have hcl12 : codeList ((m1 ++ m2).map MergedRow.toFeature) 12 =
        m1.map MergedRow.toFeature :=
      codeList_rerun_left m1 m2 12 h1c
        (fun r hr => by rw [h2c r hr]; decide)
    have hcl60 : codeList ((m1 ++ m2).map MergedRow.toFeature) 60 =
        m2.map MergedRow.toFeature :=
      codeList_rerun_right m1 m2 60
        (fun r hr => by rw [h1c r hr]; decide) h2c
    have hpwL12 : List.Pairwise (fun a b => queenF a b = false)
        (codeList ((m1 ++ m2).map MergedRow.toFeature) 12) := by
      rw [hcl12, List.pairwise_map]
      exact h1pw
    have hpwL60 : List.Pairwise (fun a b => queenF a b = false)
        (codeList ((m1 ++ m2).map MergedRow.toFeature) 60) := by
      rw [hcl60, List.pairwise_map]
      exact h2pw
    have hrr12 := processCode_single_chunk ((m1 ++ m2).map MergedRow.toFeature) 12
      hchunks (pairwise_queenF_get hpwL12)
    have hrr60 := processCode_single_chunk ((m1 ++ m2).map MergedRow.toFeature) 60
      hchunks (pairwise_queenF_get hpwL60)
    have hengine : (mergeGridRun ((m1 ++ m2).map MergedRow.toFeature) 1
        noFail keys').file.rows =
        (processCode ((m1 ++ m2).map MergedRow.toFeature)
          (create_spatial_chunks ((m1 ++ m2).map MergedRow.toFeature) 1) noFail 12).rows ++
        (processCode ((m1 ++ m2).map MergedRow.toFeature)
          (create_spatial_chunks ((m1 ++ m2).map MergedRow.toFeature) 1) noFail 60).rows :=
      rfl
    rw [hengine, hrr12, hrr60, hcl12, hcl60, List.map_map, List.map_map, List.map_append]
    rfl

/-- **C6** (counterexample).  Re-running the merge on its own output is not
the identity the specification promises: the two corner-touching squares
merge to one row with `merged_count = 2`, and the re-run keeps the geometry
but resets `merged_count` to 1, because the re-merge recomputes it as a
member *count* instead of summing the carried counts. -/
theorem idempotence_cex :
    (mergeGridRun ((mergeGridRun twoSquares 1 noFail []).file.rows.map
        MergedRow.toFeature) 1 noFail []).file.rows ≠
      (mergeGridRun twoSquares 1 noFail []).file.rows ∧
    (mergeGridRun twoSquares 1 noFail []).file.rows.map MergedRow.merged_count = [2] ∧
    (mergeGridRun ((mergeGridRun twoSquares 1 noFail []).file.rows.map
        MergedRow.toFeature) 1 noFail []).file.rows.map MergedRow.merged_count = [1] := by
  have h1 : (mergeGridRun twoSquares 1 noFail []).file.rows =
      [{ gridcode := 12, geom := {⟨0, 0, 1, 1⟩, ⟨1, 1, 2, 2⟩}, merged_count := 2 }] := by
    decide
  refine ⟨?_, ?_, ?_⟩
  · rw [h1]
    decide
  · rw [h1]
    rfl
  · rw [h1]
    decide

/-- **C6** (amended).  Re-running the engine (single chunk) on its own
output reproduces the rows exactly up to the `merged_count` column, which is
reset to 1 on every row: geometries and categories are stable under
re-merging, the carried member counts are not. -/
theorem idempotence_amended (gdf : List Feature) (k : ℕ) (keys keys' : List String)
    (hwf : FrameWF gdf) :
    (mergeGridRun ((mergeGridRun gdf k noFail keys).file.rows.map MergedRow.toFeature) 1
        noFail keys').file.rows =
      (mergeGridRun gdf k noFail keys).file.rows.map
        (fun r => { gridcode := r.gridcode, geom := r.geom, merged_count := 1 }) := by
  have hrows : (mergeGridRun gdf k noFail keys).file.rows =
      (processCode gdf (create_spatial_chunks gdf k) noFail 12).rows ++
      (processCode gdf (create_spatial_chunks gdf k) noFail 60).rows := rfl
  rw [hrows]
  exact rerun_resets_counts _ _ keys'
    (processCode_rows_gridcode gdf (create_spatial_chunks gdf k) noFail 12)
    (processCode_rows_gridcode gdf (create_spatial_chunks gdf k) noFail 60)
    (processCode_rows_wf noFail hwf) (processCode_rows_wf noFail hwf)
    processCode_rows_pairwise processCode_rows_pairwise

/-- Witness for `idempotence_amended`: the corner-touching squares. -/
theorem idempotence_amended_witness :
    (mergeGridRun ((mergeGridRun twoSquares 1 noFail []).file.rows.map
        MergedRow.toFeature) 1 noFail []).file.rows =
      (mergeGridRun twoSquares 1 noFail []).file.rows.map
        (fun r => { gridcode := r.gridcode, geom := r.geom, merged_count := 1 }) :=
  idempotence_amended twoSquares 1 [] [] (by decide)

end Wetlands
